import Mathlib

set_option maxRecDepth 2000000

/-!
# Verification of the Sudoku agent (`Sudoku_Agent.py`)

A shallow embedding of the Sudoku solver: the 9×9 board is a `List (List Nat)`
(row-major, `0` = unassigned), mutation is modelled by explicit state passing,
and the recursive backtracking search is modelled with an explicit fuel
parameter (the Python recursion depth is bounded by the number of empty cells,
which we prove; `solve_sudoku` instantiates the fuel at `82 > 81 ≥` number of
cells, so the fuel never runs out on a 9×9 board).

Python's `set` values (neighbour sets, candidate domains) are modelled as
duplicate-free lists in canonical row-major order; only their set of elements
is ever observable in the algorithm's results.
-/

namespace SudokuAgent

/-- A Sudoku board: rows of cells, `0` meaning unassigned (source: `board`,
a Python list of lists of ints). -/
abbrev Board := List (List Nat)

/-- `board[r][c]` — cell access. Out-of-range access defaults to `0`
(the Python code only ever indexes in range on well-formed boards). -/
def bget (board : Board) (r c : Nat) : Nat :=
  (board.getD r []).getD c 0

/-- `board[r][c] = v` — in-place cell update, modelled functionally.
Out-of-range updates are no-ops. -/
def bset (board : Board) (r c v : Nat) : Board :=
  board.set r ((board.getD r []).set c v)

/-- All 81 cell coordinates in row-major order. -/
def allCells : List (Nat × Nat) :=
  (List.range 9).flatMap fun r => (List.range 9).map fun c => (r, c)

/-- The board has 9 rows of 9 cells. -/
def Shape9 (board : Board) : Prop :=
  board.length = 9 ∧ ∀ row ∈ board, row.length = 9

/-- Well-formed input: 9×9 with all cells in `[0, 9]`. -/
def WF (board : Board) : Prop :=
  Shape9 board ∧ ∀ row ∈ board, ∀ v ∈ row, v ≤ 9

/-- Number of unassigned cells. -/
def countZeros (board : Board) : Nat :=
  allCells.countP fun p => bget board p.1 p.2 == 0

/-- `is_safe(board, row, col, num)` (source lines 40–52): `num` appears in no
cell of row `row`, no cell of column `col`, and no cell of the 3×3 subgrid
containing `(row, col)` — including the cell `(row, col)` itself. -/
def is_safe (board : Board) (row col num : Nat) : Bool :=
  ((List.range 9).all fun i =>
      !(bget board row i == num) && !(bget board i col == num)) &&
  ((List.range 3).all fun i => (List.range 3).all fun j =>
      !(bget board (3 * (row / 3) + i) (3 * (col / 3) + j) == num))

/-- The candidate digits `1..9` (source: `set(range(1, 10))` and
`range(1, 10)`). -/
def domain19 : List Nat := [1, 2, 3, 4, 5, 6, 7, 8, 9]

/-- `get_domain(board, row, col)` (source lines 109–121): the subset of `1..9`
not excluded by any value in the row, column, or block of `(row, col)`.
The Python function returns a set; we return the duplicate-free list of its
elements in ascending order (only `len(domain)` is ever used). -/
def get_domain (board : Board) (row col : Nat) : List Nat :=
  domain19.filter fun v =>
    ((List.range 9).all fun i =>
        !(bget board row i == v) && !(bget board i col == v)) &&
    ((List.range 3).all fun i => (List.range 3).all fun j =>
        !(bget board (3 * (row / 3) + i) (3 * (col / 3) + j) == v))

/-- `count_constraints(board, row, col)` (source lines 91–107): number of
assigned cells in the row, plus in the column, plus in the block (cells
shared between categories are counted for each category). -/
def count_constraints (board : Board) (row col : Nat) : Nat :=
  ((List.range 9).filter fun i => !(bget board row i == 0)).length +
  ((List.range 9).filter fun i => !(bget board i col == 0)).length +
  (((List.range 3).flatMap fun i => (List.range 3).map fun j => (i, j)).filter
      fun ij => !(bget board (row / 3 * 3 + ij.1) (col / 3 * 3 + ij.2) == 0)).length

/-- One fold step of `mrv_heuristic`'s scan: the accumulator is
`None` (Python `min_domain_size = inf, selected_var = None`) or
`some (selected_var, min_domain_size)`. -/
def mrvStep (board : Board) (acc : Option ((Nat × Nat) × Nat)) (p : Nat × Nat) :
    Option ((Nat × Nat) × Nat) :=
  if bget board p.1 p.2 == 0 then
    let d := (get_domain board p.1 p.2).length
    match acc with
    | none => some (p, d)
    | some q => if d < q.2 then some (p, d) else some q
  else acc

/-- `mrv_heuristic(board)` (source lines 67–77): row-major scan keeping the
first unassigned cell with the strictly smallest live domain. -/
def mrv_heuristic (board : Board) : Option (Nat × Nat) :=
  (allCells.foldl (mrvStep board) none).map Prod.fst

/-- One fold step of `degree_heuristic`'s scan (Python `max_degree = -1`:
the first unassigned cell always replaces the empty accumulator). -/
def degStep (board : Board) (acc : Option ((Nat × Nat) × Nat)) (p : Nat × Nat) :
    Option ((Nat × Nat) × Nat) :=
  if bget board p.1 p.2 == 0 then
    let d := count_constraints board p.1 p.2
    match acc with
    | none => some (p, d)
    | some q => if d > q.2 then some (p, d) else some q
  else acc

/-- `degree_heuristic(board)` (source lines 79–89): row-major scan keeping the
first unassigned cell with the strictly largest degree. -/
def degree_heuristic (board : Board) : Option (Nat × Nat) :=
  (allCells.foldl (degStep board) none).map Prod.fst

/-- The heuristic argument of `solve_sudoku`: `"Degree"`, `"MRV"`, or anything
else (`None`/`"none"`), which selects the plain row-major scan. -/
inductive Heuristic where
  | none
  | degree
  | mrv
deriving DecidableEq

/-- The method argument of `solve_sudoku`: `"backtracking"` or `"arc"`. -/
inductive Method where
  | backtracking
  | arc
deriving DecidableEq

instance : BEq Method := instBEqOfDecidableEq

/-- `find_empty_location(board, heuristic)` (source lines 54–65). -/
def find_empty_location (board : Board) (heuristic : Heuristic) :
    Option (Nat × Nat) :=
  match heuristic with
  | Heuristic.degree => degree_heuristic board
  | Heuristic.mrv => mrv_heuristic board
  | Heuristic.none => allCells.find? fun p => bget board p.1 p.2 == 0

/-! ## The AC-3 propagator (`ac`, source lines 123–188) -/

/-- `is_consistent(x, y)` (source lines 164–166). -/
def is_consistent (x y : Nat) : Bool := x != y

/-- `get_neighbors(r, c, rows, cols)` (source lines 168–188): all cells
sharing the row, the column, or the 3×3 block of `(r, c)`, excluding `(r, c)`.
The source returns a Python set; we return the duplicate-free list of its
elements in canonical row-major order (for a 9×9 board the element sets
coincide; only the element set affects `ac`'s result). -/
def get_neighbors (r c rows cols : Nat) : List (Nat × Nat) :=
  ((List.range rows).flatMap fun i => (List.range cols).map fun j => (i, j)).filter
    fun p => decide (p ≠ (r, c)) &&
      (p.1 == r || p.2 == c || (p.1 / 3 == r / 3 && p.2 / 3 == c / 3))

/-- The per-cell candidate domains built by `ac` (source lines 128–134):
full `1..9` for unassigned cells, the singleton of the assigned value
otherwise. The Python dict keyed by in-range cells is modelled as a total
function; the algorithm only consults in-range keys. -/
def initDomains (board : Board) : (Nat × Nat) → List Nat :=
  fun p => if bget board p.1 p.2 == 0 then domain19 else [bget board p.1 p.2]

/-- The initial worklist of `ac` (source lines 136–141): an arc
`((r, c), neighbor)` for every unassigned cell `(r, c)` and every one of its
neighbours. -/
def initQueue (board : Board) (rows cols : Nat) :
    List ((Nat × Nat) × (Nat × Nat)) :=
  (List.range rows).flatMap fun r => (List.range cols).flatMap fun c =>
    if bget board r c == 0 then
      (get_neighbors r c rows cols).map fun n => ((r, c), n)
    else []

/-- `revise(domains, xi, yi)` (source lines 156–162): drop from `domains[xi]`
every value with no differing support in `domains[yi]`; report whether
anything was dropped. -/
def revise (domains : (Nat × Nat) → List Nat) (xi yi : Nat × Nat) :
    ((Nat × Nat) → List Nat) × Bool :=
  let newd := (domains xi).filter fun x => (domains yi).any fun y => is_consistent x y
  if newd.length = (domains xi).length then (domains, false)
  else ((fun q => if q = xi then newd else domains q), true)

/-- The `while queue:` loop of `ac` (source lines 143–154), with an explicit
fuel parameter. Fuel exhaustion returns `true`, so a `false` result always
comes from an emptied domain; `acFuel` below exceeds the greatest possible
number of iterations on a 9×9 board, so exhaustion is never reached there. -/
def acLoop (rows cols : Nat) :
    Nat → ((Nat × Nat) → List Nat) → List ((Nat × Nat) × (Nat × Nat)) → Bool
  | 0, _, _ => true
  | _ + 1, _, [] => true
  | fuel + 1, domains, (xi, yi) :: rest =>
    let rd := revise domains xi yi
    if rd.2 then
      if (rd.1 xi).length = 0 then false
      else
        acLoop rows cols fuel rd.1
          (rest ++ ((get_neighbors xi.1 xi.2 rows cols).filter
              fun n => decide (n ≠ yi)).map fun n => (n, xi))
    else acLoop rows cols fuel rd.1 rest

/-- Fuel bound for `acLoop`: the number of loop iterations is at most the
initial queue length (`≤ rows*cols*(rows+cols+9)`) plus the re-enqueued arcs
(at most `rows+cols+9` per removal, with at most `9*rows*cols` removals). -/
def acFuel (rows cols : Nat) : Nat :=
  rows * cols * (rows + cols + 9) * 10 + 1

/-- `ac(board)` (source lines 123–154). -/
def ac (board : Board) : Bool :=
  let rows := board.length
  let cols := (board.getD 0 []).length
  acLoop rows cols (acFuel rows cols) (initDomains board) (initQueue board rows cols)

/-! ## The backtracking search (`solve_sudoku`, source lines 190–210) -/

/-- The candidate values tried for a cell (source line 203:
`for num in range(1, 10)`). -/
def nums : List Nat := domain19

/-- The `for num in range(1, 10):` loop of `solve_sudoku` (source lines
203–210), parameterised by the recursive call `solveRec`. The board returned
with `false` models the in-place state of the Python `board` after the loop:
each failed recursive attempt is undone by `board[row][col] = 0`. -/
def tryNumsF (solveRec : Board → Board × Bool) :
    Board → Nat → Nat → List Nat → Board × Bool
  | board, _, _, [] => (board, false)
  | board, r, c, n :: ns =>
    if is_safe board r c n then
      let res := solveRec (bset board r c n)
      if res.2 then res
      else tryNumsF solveRec (bset res.1 r c 0) r c ns
    else tryNumsF solveRec board r c ns

/-- `solve_sudoku(board, method, heuristic)` (source lines 190–210) with an
explicit fuel bounding the recursion depth; each recursive call fills one
empty cell, so `countZeros board` many steps suffice. Fuel exhaustion returns
`(board, false)` and is never reached from `solve_sudoku` on a 9×9 board. -/
def solveFuel : Nat → Method → Heuristic → Board → Board × Bool
  | 0, _, _, board => (board, false)
  | fuel + 1, m, h, board =>
    if (m == Method.arc) && !(ac board) then (board, false)
    else
      match find_empty_location board h with
      | none => (board, true)
      | some rc => tryNumsF (solveFuel fuel m h) board rc.1 rc.2 nums

/-- `solve_sudoku(board, method, heuristic)`: result board together with the
returned boolean (`True` = solved in place, `False` = no solution). -/
def solve_sudoku (board : Board) (method : Method) (heuristic : Heuristic) :
    Board × Bool :=
  solveFuel 82 method heuristic board

/-- Variant of `solve_sudoku` instrumented with a counter of how many times
the propagator `ac` is invoked (it is called exactly once per entry into
`solve_sudoku` when `method == "arc"`, source line 192–193). The board/bool
component coincides with `solve_sudoku`. -/
def solveCountFuel : Nat → Method → Heuristic → Board → (Board × Bool) × Nat
  | 0, _, _, board => ((board, false), 0)
  | fuel + 1, m, h, board =>
    let k := if m == Method.arc then 1 else 0
    if (m == Method.arc) && !(ac board) then ((board, false), k)
    else
      match find_empty_location board h with
      | none => ((board, true), k)
      | some rc => tryNumsCount (solveCountFuel fuel m h) board rc.1 rc.2 nums k
where
  /-- The candidate loop for `solveCountFuel`, accumulating `ac`-call counts
  of the recursive calls. -/
  tryNumsCount (solveRec : Board → (Board × Bool) × Nat) :
      Board → Nat → Nat → List Nat → Nat → (Board × Bool) × Nat
  | board, _, _, [], k => ((board, false), k)
  | board, r, c, n :: ns, k =>
    if is_safe board r c n then
      let res := solveRec (bset board r c n)
      if res.1.2 then (res.1, k + res.2)
      else tryNumsCount solveRec (bset res.1.1 r c 0) r c ns (k + res.2)
    else tryNumsCount solveRec board r c ns k

/-- `solve_sudoku` with the `ac`-invocation counter. -/
def solve_sudoku_acCalls (board : Board) (method : Method)
    (heuristic : Heuristic) : (Board × Bool) × Nat :=
  solveCountFuel 82 method heuristic board

/-! ## The CSV loader (`read_sudoku_from_csv`, source lines 6–23) -/

/-- `int(cell)` for a list of digit characters (rejects empty and non-digit
input). -/
def digitsToNat (l : List Char) : Option Nat :=
  if l.isEmpty then none
  else l.foldl (fun acc c => acc.bind fun a =>
    if c.isDigit then some (10 * a + (c.toNat - 48)) else none) (some 0)

/-- Python's `int(cell)` on a CSV cell: an optional sign followed by decimal
digits parses to the corresponding integer; anything else raises
`ValueError` (`none`). -/
def parsePyInt (s : String) : Option Int :=
  match s.toList with
  | '-' :: rest => (digitsToNat rest).map fun n => -(n : Int)
  | '+' :: rest => (digitsToNat rest).map fun n => (n : Int)
  | l => (digitsToNat l).map fun n => (n : Int)

/-- One row of the loader (source lines 12–14): reject rows without exactly
9 cells, then parse every cell with `int`. -/
def parseCells : List String → Option (List Int)
  | [] => some []
  | s :: ss =>
    match parsePyInt s, parseCells ss with
    | some v, some vs => some (v :: vs)
    | _, _ => none

/-- Row handling of `read_sudoku_from_csv`: the `len(row) != 9` check
(raising `ValueError`) followed by `[int(cell) for cell in row]`. -/
def parseRow (row : List String) : Except String (List Int) :=
  if row.length = 9 then
    match parseCells row with
    | some vals => Except.ok vals
    | none => Except.error "invalid literal for int with base 10"
  else Except.error "Each row must contain 9 cells"

/-- `read_sudoku_from_csv` (source lines 6–23) over the parsed CSV rows
(each row a list of cell strings): builds the board row by row, stopping
with the error of the first bad row. `sys.exit(1)` after the caught
`ValueError` is modelled as `Except.error`. -/
def read_sudoku_from_csv : List (List String) → Except String (List (List Int))
  | [] => Except.ok []
  | row :: rest =>
    match parseRow row with
    | Except.error e => Except.error e
    | Except.ok vals =>
      match read_sudoku_from_csv rest with
      | Except.error e => Except.error e
      | Except.ok board => Except.ok (vals :: board)

/-! ## Specification-side predicates -/

/-- Two distinct cells constrain each other: same row, same column, or same
3×3 block (the peer relation of spec §3). -/
def isPeerPair (p q : Nat × Nat) : Prop :=
  p ≠ q ∧ (p.1 = q.1 ∨ p.2 = q.2 ∨ (p.1 / 3 = q.1 / 3 ∧ p.2 / 3 = q.2 / 3))

instance (p q : Nat × Nat) : Decidable (isPeerPair p q) := by
  unfold isPeerPair; infer_instance

/-- Every cell is assigned. -/
def NoZeros (board : Board) : Prop :=
  ∀ p ∈ allCells, bget board p.1 p.2 ≠ 0

/-- `f` agrees with `board` on every assigned cell of `board`. -/
def Extends (board f : Board) : Prop :=
  ∀ p ∈ allCells, bget board p.1 p.2 ≠ 0 → bget f p.1 p.2 = bget board p.1 p.2

/-- Every cell of `f` holds a digit `1..9`. -/
def AllDigits (f : Board) : Prop :=
  ∀ p ∈ allCells, 1 ≤ bget f p.1 p.2 ∧ bget f p.1 p.2 ≤ 9

/-- Every peer pair of which at least one cell is unassigned in `board`
holds two different values in `f`. -/
def PairsOK (board f : Board) : Prop :=
  ∀ p ∈ allCells, ∀ q ∈ allCells, isPeerPair p q →
    (bget board p.1 p.2 = 0 ∨ bget board q.1 q.2 = 0) →
    bget f p.1 p.2 ≠ bget f q.1 q.2

/-- `f` is exactly what the backtracking search can turn `board` into: a
full digit grid extending `board`'s assigned cells in which every
constraint involving an originally-unassigned cell is satisfied.
(Constraints between two originally-assigned cells are never checked by the
search.) -/
def SolWitness (board f : Board) : Prop :=
  Shape9 f ∧ AllDigits f ∧ Extends board f ∧ PairsOK board f

/-- No two assigned cells of `board` that are peers hold the same digit
(the input's fixed cells do not already violate a constraint). -/
def Consistent (board : Board) : Prop :=
  ∀ p ∈ allCells, ∀ q ∈ allCells, isPeerPair p q →
    bget board p.1 p.2 ≠ 0 → bget board q.1 q.2 ≠ 0 →
    bget board p.1 p.2 ≠ bget board q.1 q.2

instance (board : Board) : Decidable (Shape9 board) := by
  unfold Shape9; infer_instance

instance (board : Board) : Decidable (WF board) := by
  unfold WF; infer_instance

instance (board : Board) : Decidable (NoZeros board) := by
  unfold NoZeros; infer_instance

instance (board f : Board) : Decidable (Extends board f) := by
  unfold Extends; infer_instance

instance (f : Board) : Decidable (AllDigits f) := by
  unfold AllDigits; infer_instance

instance (board f : Board) : Decidable (PairsOK board f) := by
  unfold PairsOK; infer_instance

instance (board f : Board) : Decidable (SolWitness board f) := by
  unfold SolWitness; infer_instance

instance (board : Board) : Decidable (Consistent board) := by
  unfold Consistent; infer_instance

/-- `isPlacementSafe` as worded by spec §4.1: true iff `value` appears
nowhere **else** in the row, nowhere else in the column, and nowhere else in
the 3×3 block — i.e. the scans exclude the cell `(row, col)` itself.
(Stated from the spec's words for comparison with the source's `is_safe`.) -/
def isPlacementSafeSpec (board : Board) (row col num : Nat) : Bool :=
  ((List.range 9).all fun i => i == col || !(bget board row i == num)) &&
  ((List.range 9).all fun i => i == row || !(bget board i col == num)) &&
  ((List.range 3).all fun i => (List.range 3).all fun j =>
    (3 * (row / 3) + i == row && 3 * (col / 3) + j == col) ||
      !(bget board (3 * (row / 3) + i) (3 * (col / 3) + j) == num))

/-- The cells of row `i` (used to state the solved-grid property). -/
def rowCells (i : Nat) : List (Nat × Nat) :=
  (List.range 9).map fun j => (i, j)

/-- The cells of column `j`. -/
def colCells (j : Nat) : List (Nat × Nat) :=
  (List.range 9).map fun i => (i, j)

/-- Offsets within a 3×3 block. -/
def blockIdx : List (Nat × Nat) :=
  (List.range 3).flatMap fun di => (List.range 3).map fun dj => (di, dj)

/-- The cells of the 3×3 block with block coordinates `(bi, bj)`. -/
def blockCells (bi bj : Nat) : List (Nat × Nat) :=
  blockIdx.map fun dd => (3 * bi + dd.1, 3 * bj + dd.2)

/-- The values a board holds on a list of cells. -/
def unitVals (f : Board) (u : List (Nat × Nat)) : List Nat :=
  u.map fun p => bget f p.1 p.2

/-- The fully-assigned board whose every cell is `5`: its fixed cells violate
every row, column, and block constraint. -/
def allFives : Board := List.replicate 9 (List.replicate 9 5)

/-- A complete valid Sudoku grid (every row, column, and block holds `1..9`). -/
def gridF0 : Board :=
  [[1, 2, 3, 4, 5, 6, 7, 8, 9],
   [4, 5, 6, 7, 8, 9, 1, 2, 3],
   [7, 8, 9, 1, 2, 3, 4, 5, 6],
   [2, 3, 4, 5, 6, 7, 8, 9, 1],
   [5, 6, 7, 8, 9, 1, 2, 3, 4],
   [8, 9, 1, 2, 3, 4, 5, 6, 7],
   [3, 4, 5, 6, 7, 8, 9, 1, 2],
   [6, 7, 8, 9, 1, 2, 3, 4, 5],
   [9, 1, 2, 3, 4, 5, 6, 7, 8]]

/-- `gridF0` with the last cell blanked: a puzzle with one empty cell. -/
def gridF0a : Board := bset gridF0 8 8 0

/-- `gridF0` with the first two cells blanked: a puzzle with two empty
cells. -/
def gridF0b : Board := bset (bset gridF0 0 0 0) 0 1 0

/-- A board on which `ac` fails: cell `(0, 0)` is empty while its row peers
carry `2..9` and its column peer `(1, 0)` carries `1`, so the domain of
`(0, 0)` is emptied by propagation. -/
def gridAcFail : Board :=
  [[0, 2, 3, 4, 5, 6, 7, 8, 9],
   [1, 1, 1, 1, 1, 1, 1, 1, 1],
   [1, 1, 1, 1, 1, 1, 1, 1, 1],
   [1, 1, 1, 1, 1, 1, 1, 1, 1],
   [1, 1, 1, 1, 1, 1, 1, 1, 1],
   [1, 1, 1, 1, 1, 1, 1, 1, 1],
   [1, 1, 1, 1, 1, 1, 1, 1, 1],
   [1, 1, 1, 1, 1, 1, 1, 1, 1],
   [1, 1, 1, 1, 1, 1, 1, 1, 1]]

/-- An unsatisfiable board on which the search fails after inspecting a
single cell: `(0, 0)` is empty, its row holds `1..8` and its column `9`. -/
def gridStuck : Board :=
  [[0, 1, 2, 3, 4, 5, 6, 7, 8],
   [9, 0, 0, 0, 0, 0, 0, 0, 0],
   [0, 0, 0, 0, 0, 0, 0, 0, 0],
   [0, 0, 0, 0, 0, 0, 0, 0, 0],
   [0, 0, 0, 0, 0, 0, 0, 0, 0],
   [0, 0, 0, 0, 0, 0, 0, 0, 0],
   [0, 0, 0, 0, 0, 0, 0, 0, 0],
   [0, 0, 0, 0, 0, 0, 0, 0, 0],
   [0, 0, 0, 0, 0, 0, 0, 0, 0]]

/-- The all-zero board with a single `1` at `(0, 0)`. -/
def gridC6 : Board := bset (List.replicate 9 (List.replicate 9 0)) 0 0 1

/-- Nine CSV rows whose every cell is the string `17`: every cell parses as
an integer, but none of them is in the Sudoku range `[0, 9]`. -/
def csvRows17 : List (List String) :=
  List.replicate 9 (List.replicate 9 "17")

/-- A CSV file with a single (well-formed) row. -/
def csvRowsOne : List (List String) :=
  [["1", "2", "3", "4", "5", "6", "7", "8", "9"]]

/-! ## Basic lemmas about cells, `bget`, and `bset` -/

theorem mem_allCells {p : Nat × Nat} : p ∈ allCells ↔ p.1 < 9 ∧ p.2 < 9 := by
  cases p with
  | mk r c =>
    simp only [allCells, List.mem_flatMap, List.mem_map, List.mem_range]
    constructor
    · rintro ⟨a, ha, b, hb, e⟩
      cases e; exact ⟨ha, hb⟩
    · rintro ⟨hr, hc⟩
      exact ⟨r, hr, c, hc, rfl⟩

theorem allCells_nodup : allCells.Nodup := by decide

theorem getD_set_self {α : Type _} (l : List α) (i : Nat) (v d : α) :
    (l.set i v).getD i d = if i < l.length then v else d := by
  induction l generalizing i with
  | nil => simp
  | cons a t ih =>
    cases i with
    | zero => simp
    | succ j => simpa using ih j

theorem getD_set_ne {α : Type _} (l : List α) {i j : Nat} (v d : α)
    (h : i ≠ j) : (l.set i v).getD j d = l.getD j d := by
  rw [List.getD_eq_getElem?_getD, List.getD_eq_getElem?_getD,
    List.getElem?_set_ne h]

theorem set_getD_self {α : Type _} (l : List α) (i : Nat) (d : α) :
    l.set i (l.getD i d) = l := by
  induction l generalizing i with
  | nil => rfl
  | cons a t ih =>
    cases i with
    | zero => simp
    | succ j => simpa using ih j

theorem bget_bset_self {board : Board} {r c : Nat} (v : Nat)
    (hr : r < board.length) (hc : c < (board.getD r []).length) :
    bget (bset board r c v) r c = v := by
  unfold bget bset
  rw [getD_set_self, if_pos hr, getD_set_self, if_pos hc]

theorem bget_bset_ne (board : Board) {r c r' c' : Nat} (v : Nat)
    (h : (r, c) ≠ (r', c')) :
    bget (bset board r c v) r' c' = bget board r' c' := by
  unfold bget bset
  by_cases hr : r = r'
  · subst hr
    have hc : c ≠ c' := by
      intro e; exact h (by rw [e])
    rw [getD_set_self]
    by_cases hrl : r < board.length
    · rw [if_pos hrl, getD_set_ne _ _ _ hc]
    · rw [if_neg hrl]
      have : board.getD r [] = [] := by
        rw [List.getD_eq_getElem?_getD, List.getElem?_eq_none (by omega)]
        rfl
      rw [this]
  · rw [getD_set_ne _ _ _ hr]

theorem bget_bset_cases (board : Board) (r c v r' c' : Nat) :
    bget (bset board r c v) r' c' = bget board r' c' ∨
      bget (bset board r c v) r' c' = v := by
  by_cases h : (r, c) = (r', c')
  · cases h
    unfold bget bset
    rw [getD_set_self]
    by_cases hrl : r < board.length
    · rw [if_pos hrl, getD_set_self]
      by_cases hcl : c < (board.getD r []).length
      · right; rw [if_pos hcl]
      · left; rw [if_neg hcl, List.getD_eq_getElem?_getD,
          List.getElem?_eq_none (by omega)]
        rfl
    · left
      rw [if_neg hrl]
      have : board.getD r [] = [] := by
        rw [List.getD_eq_getElem?_getD, List.getElem?_eq_none (by omega)]
        rfl
      rw [this]
  · left; exact bget_bset_ne board v h

theorem bset_bset (board : Board) (r c v w : Nat) :
    bset (bset board r c v) r c w = bset board r c w := by
  by_cases hrl : r < board.length
  · unfold bset
    rw [getD_set_self, if_pos hrl, List.set_set, List.set_set]
  · have h1 : bset board r c v = board := by
      unfold bset
      exact List.set_eq_of_length_le (by omega)
    rw [h1]

theorem bset_restore (board : Board) (r c v : Nat) (h : bget board r c = 0) :
    bset (bset board r c v) r c 0 = board := by
  rw [bset_bset]
  unfold bset
  unfold bget at h
  rw [show (0 : Nat) = (board.getD r []).getD c 0 from h.symm, set_getD_self,
    set_getD_self]

theorem row_length {board : Board} (h : Shape9 board) {r : Nat} (hr : r < 9) :
    (board.getD r []).length = 9 := by
  have hlen : r < board.length := by rw [h.1]; exact hr
  have hrow : board.getD r [] = board[r] := by
    rw [List.getD_eq_getElem?_getD, List.getElem?_eq_getElem hlen]
    rfl
  rw [hrow]
  exact h.2 _ (List.getElem_mem hlen)

theorem shape9_bset {board : Board} (h : Shape9 board) (r c v : Nat) :
    Shape9 (bset board r c v) := by
  by_cases hrl : r < board.length
  · constructor
    · rw [bset, List.length_set, h.1]
    · intro row hrow
      rcases List.mem_or_eq_of_mem_set hrow with hmem | heq
      · exact h.2 row hmem
      · rw [heq, List.length_set]
        exact row_length h (h.1 ▸ hrl)
  · have h1 : bset board r c v = board := by
      unfold bset
      exact List.set_eq_of_length_le (by omega)
    rw [h1]; exact h

theorem wf_bset {board : Board} (h : WF board) (r c : Nat) {v : Nat}
    (hv : v ≤ 9) : WF (bset board r c v) := by
  refine ⟨shape9_bset h.1 r c v, ?_⟩
  intro row hrow x hx
  rcases List.mem_or_eq_of_mem_set hrow with hmem | heq
  · exact h.2 row hmem x hx
  · subst heq
    rcases List.mem_or_eq_of_mem_set hx with hxm | hxe
    · by_cases hrl : r < board.length
      · have : board.getD r [] ∈ board := by
          have hrow' : board.getD r [] = board[r] := by
            rw [List.getD_eq_getElem?_getD, List.getElem?_eq_getElem hrl]
            rfl
          rw [hrow']
          exact List.getElem_mem hrl
        exact h.2 _ this x hxm
      · have : board.getD r [] = [] := by
          rw [List.getD_eq_getElem?_getD, List.getElem?_eq_none (by omega)]
          rfl
        rw [this] at hxm
        cases hxm
    · omega

theorem countP_update {α : Type _} {l : List α} {P Q : α → Bool}
    (hnd : l.Nodup) {x : α} (hx : x ∈ l) (hP : P x = false) (hQ : Q x = true)
    (hagree : ∀ y ∈ l, y ≠ x → P y = Q y) :
    l.countP P + 1 = l.countP Q := by
  induction l with
  | nil => cases hx
  | cons a t ih =>
    have hnd' : t.Nodup := (List.nodup_cons.mp hnd).2
    have hna : a ∉ t := (List.nodup_cons.mp hnd).1
    rcases List.mem_cons.mp hx with hxa | hxt
    · subst hxa
      rw [List.countP_cons_of_neg _ _ (by simp [hP]),
        List.countP_cons_of_pos _ _ hQ]
      have : t.countP P = t.countP Q := by
        apply List.countP_congr
        intro y hy
        have : P y = Q y := hagree y (List.mem_cons_of_mem _ hy)
          (fun e => hna (e ▸ hy))
        rw [this]
      omega
    · have hax : a ≠ x := fun e => hna (e ▸ hxt)
      have hPQ : P a = Q a := hagree a (List.mem_cons_self a t) hax
      rw [List.countP_cons, List.countP_cons, hPQ]
      have := ih hnd' hxt fun y hy hyx => hagree y (List.mem_cons_of_mem _ hy) hyx
      omega

theorem countZeros_bset {board : Board} (h9 : Shape9 board) {r c : Nat}
    (hr : r < 9) (hc : c < 9) (h0 : bget board r c = 0) {v : Nat}
    (hv : v ≠ 0) : countZeros (bset board r c v) + 1 = countZeros board := by
  unfold countZeros
  apply countP_update allCells_nodup (x := (r, c))
    (mem_allCells.mpr ⟨hr, hc⟩)
  · have : bget (bset board r c v) r c = v := by
      apply bget_bset_self
      · rw [h9.1]; exact hr
      · rw [row_length h9 hr]; exact hc
    simp [this, hv]
  · simp [h0]
  · intro y _ hy
    have : bget (bset board r c v) y.1 y.2 = bget board y.1 y.2 :=
      bget_bset_ne board v (fun e => hy e.symm)
    rw [this]

theorem countZeros_le (board : Board) : countZeros board ≤ 81 := by
  unfold countZeros
  have h := List.countP_le_length
    (p := fun p : Nat × Nat => bget board p.1 p.2 == 0) (l := allCells)
  have hlen : allCells.length = 81 := by decide
  omega

/-! ## Characterisation of `is_safe` -/

theorem is_safe_iff {board : Board} {r c n : Nat} :
    is_safe board r c n = true ↔
      (∀ i < 9, bget board r i ≠ n ∧ bget board i c ≠ n) ∧
      (∀ i < 3, ∀ j < 3,
        bget board (3 * (r / 3) + i) (3 * (c / 3) + j) ≠ n) := by
  simp only [is_safe, Bool.and_eq_true, List.all_eq_true, List.mem_range,
    Bool.not_eq_true', beq_eq_false_iff_ne]

theorem is_safe_peer {board : Board} {r c n : Nat}
    (hs : is_safe board r c n = true) {q : Nat × Nat} (hq : q ∈ allCells)
    (hpeer : isPeerPair (r, c) q) : bget board q.1 q.2 ≠ n := by
  rw [is_safe_iff] at hs
  obtain ⟨hrc, hblk⟩ := hs
  obtain ⟨hne, hcase⟩ := hpeer
  rw [mem_allCells] at hq
  rcases hcase with h1 | h2 | h3
  · have h1' : r = q.1 := h1
    have := (hrc q.2 hq.2).1
    rw [h1'] at this
    exact this
  · have h2' : c = q.2 := h2
    have := (hrc q.1 hq.1).2
    rw [h2'] at this
    exact this
  · have h3' : r / 3 = q.1 / 3 ∧ c / 3 = q.2 / 3 := h3
    have e1 : q.1 = 3 * (r / 3) + q.1 % 3 := by omega
    have e2 : q.2 = 3 * (c / 3) + q.2 % 3 := by omega
    have := hblk (q.1 % 3) (by omega) (q.2 % 3) (by omega)
    rw [← e1, ← e2] at this
    exact this

theorem is_safe_of_cells {board : Board} {r c n : Nat} (hr : r < 9)
    (hc : c < 9)
    (H : ∀ q ∈ allCells,
      (q.1 = r ∨ q.2 = c ∨ (q.1 / 3 = r / 3 ∧ q.2 / 3 = c / 3)) →
      bget board q.1 q.2 ≠ n) :
    is_safe board r c n = true := by
  rw [is_safe_iff]
  refine ⟨fun i hi => ⟨?_, ?_⟩, fun i hi j hj => ?_⟩
  · exact H (r, i) (mem_allCells.mpr ⟨hr, hi⟩) (Or.inl rfl)
  · exact H (i, c) (mem_allCells.mpr ⟨hi, hc⟩) (Or.inr (Or.inl rfl))
  · have hq1 : (3 * (r / 3) + i) / 3 = r / 3 := by omega
    have hq2 : (3 * (c / 3) + j) / 3 = c / 3 := by omega
    have hm1 : 3 * (r / 3) + i < 9 := by omega
    have hm2 : 3 * (c / 3) + j < 9 := by omega
    exact H (3 * (r / 3) + i, 3 * (c / 3) + j)
      (mem_allCells.mpr ⟨hm1, hm2⟩) (Or.inr (Or.inr ⟨hq1, hq2⟩))

theorem isPeerPair_symm {p q : Nat × Nat} (h : isPeerPair p q) :
    isPeerPair q p := by
  obtain ⟨hne, hcase⟩ := h
  exact ⟨fun e => hne e.symm, by tauto⟩

/-! ## The variable selectors pick exactly the unassigned cells -/

theorem mrvStep_some {board : Board} {acc : Option ((Nat × Nat) × Nat)}
    {p : Nat × Nat} {y : (Nat × Nat) × Nat}
    (h : mrvStep board acc p = some y) :
    acc = some y ∨ (y.1 = p ∧ bget board p.1 p.2 = 0) := by
  unfold mrvStep at h
  by_cases hz : (bget board p.1 p.2 == 0) = true
  · rw [if_pos hz] at h
    cases acc with
    | none =>
      right
      have h' : some (p, (get_domain board p.1 p.2).length) = some y := h
      cases Option.some.inj h'
      exact ⟨rfl, by simpa using hz⟩
    | some q =>
      by_cases hlt : (get_domain board p.1 p.2).length < q.2
      · right
        have h' : some (p, (get_domain board p.1 p.2).length) = some y := by
          rw [← h]
          exact (if_pos hlt).symm
        cases Option.some.inj h'
        exact ⟨rfl, by simpa using hz⟩
      · left
        have h' : some q = some y := by
          rw [← h]
          exact (if_neg hlt).symm
        exact h'
  · rw [if_neg hz] at h
    left
    exact h

theorem mrvStep_none {board : Board} {acc : Option ((Nat × Nat) × Nat)}
    {p : Nat × Nat} (h : mrvStep board acc p = none) :
    acc = none ∧ bget board p.1 p.2 ≠ 0 := by
  unfold mrvStep at h
  by_cases hz : (bget board p.1 p.2 == 0) = true
  · rw [if_pos hz] at h
    exfalso
    cases acc with
    | none => exact Option.noConfusion h
    | some q =>
      by_cases hlt : (get_domain board p.1 p.2).length < q.2
      · have h' : some (p, (get_domain board p.1 p.2).length) = none := by
          rw [← h]
          exact (if_pos hlt).symm
        exact Option.noConfusion h'
      · have h' : some q = none := by
          rw [← h]
          exact (if_neg hlt).symm
        exact Option.noConfusion h'
  · rw [if_neg hz] at h
    exact ⟨h, by simpa using hz⟩

theorem degStep_some {board : Board} {acc : Option ((Nat × Nat) × Nat)}
    {p : Nat × Nat} {y : (Nat × Nat) × Nat}
    (h : degStep board acc p = some y) :
    acc = some y ∨ (y.1 = p ∧ bget board p.1 p.2 = 0) := by
  unfold degStep at h
  by_cases hz : (bget board p.1 p.2 == 0) = true
  · rw [if_pos hz] at h
    cases acc with
    | none =>
      right
      have h' : some (p, count_constraints board p.1 p.2) = some y := h
      cases Option.some.inj h'
      exact ⟨rfl, by simpa using hz⟩
    | some q =>
      by_cases hlt : count_constraints board p.1 p.2 > q.2
      · right
        have h' : some (p, count_constraints board p.1 p.2) = some y := by
          rw [← h]
          exact (if_pos hlt).symm
        cases Option.some.inj h'
        exact ⟨rfl, by simpa using hz⟩
      · left
        have h' : some q = some y := by
          rw [← h]
          exact (if_neg hlt).symm
        exact h'
  · rw [if_neg hz] at h
    left
    exact h

theorem degStep_none {board : Board} {acc : Option ((Nat × Nat) × Nat)}
    {p : Nat × Nat} (h : degStep board acc p = none) :
    acc = none ∧ bget board p.1 p.2 ≠ 0 := by
  unfold degStep at h
  by_cases hz : (bget board p.1 p.2 == 0) = true
  · rw [if_pos hz] at h
    exfalso
    cases acc with
    | none => exact Option.noConfusion h
    | some q =>
      by_cases hlt : count_constraints board p.1 p.2 > q.2
      · have h' : some (p, count_constraints board p.1 p.2) = none := by
          rw [← h]
          exact (if_pos hlt).symm
        exact Option.noConfusion h'
      · have h' : some q = none := by
          rw [← h]
          exact (if_neg hlt).symm
        exact Option.noConfusion h'
  · rw [if_neg hz] at h
    exact ⟨h, by simpa using hz⟩

theorem foldl_sel_some {step : Option ((Nat × Nat) × Nat) → (Nat × Nat) →
      Option ((Nat × Nat) × Nat)} {P : Nat × Nat → Prop}
    (hstep : ∀ {acc p y}, step acc p = some y →
      acc = some y ∨ (y.1 = p ∧ P p)) :
    ∀ (l : List (Nat × Nat)) (acc : Option ((Nat × Nat) × Nat))
      (x : (Nat × Nat) × Nat), l.foldl step acc = some x →
      acc = some x ∨ (x.1 ∈ l ∧ P x.1) := by
  intro l
  induction l with
  | nil =>
    intro acc x h
    left
    exact h
  | cons a t ih =>
    intro acc x h
    rw [List.foldl_cons] at h
    rcases ih (step acc a) x h with hacc | hmem
    · rcases hstep hacc with h1 | h2
      · left; exact h1
      · right
        refine ⟨?_, h2.1 ▸ h2.2⟩
        rw [h2.1]
        exact List.mem_cons_self a t
    · right
      exact ⟨List.mem_cons_of_mem _ hmem.1, hmem.2⟩

theorem foldl_sel_none {step : Option ((Nat × Nat) × Nat) → (Nat × Nat) →
      Option ((Nat × Nat) × Nat)} {P : Nat × Nat → Prop}
    (hstep : ∀ {acc p}, step acc p = none → acc = none ∧ P p) :
    ∀ (l : List (Nat × Nat)) (acc : Option ((Nat × Nat) × Nat)),
      l.foldl step acc = none → acc = none ∧ ∀ p ∈ l, P p := by
  intro l
  induction l with
  | nil =>
    intro acc h
    exact ⟨h, fun p hp => absurd hp (List.not_mem_nil p)⟩
  | cons a t ih =>
    intro acc h
    rw [List.foldl_cons] at h
    obtain ⟨hstepn, ht⟩ := ih (step acc a) h
    obtain ⟨hacc, hpa⟩ := hstep hstepn
    refine ⟨hacc, fun p hp => ?_⟩
    rcases List.mem_cons.mp hp with rfl | hpt
    · exact hpa
    · exact ht p hpt

theorem find_empty_some {board : Board} {h : Heuristic} {p : Nat × Nat}
    (hf : find_empty_location board h = some p) :
    p ∈ allCells ∧ bget board p.1 p.2 = 0 := by
  cases h with
  | none =>
    unfold find_empty_location at hf
    exact ⟨List.mem_of_find?_eq_some hf, by simpa using List.find?_some hf⟩
  | degree =>
    unfold find_empty_location degree_heuristic at hf
    cases hx : allCells.foldl (degStep board) none with
    | none => rw [hx] at hf; cases hf
    | some x =>
      rw [hx] at hf
      have hxp : x.1 = p := by simpa using hf
      rcases foldl_sel_some (fun h => degStep_some h) allCells none x hx with
        habs | hmem
      · cases habs
      · rw [← hxp]; exact hmem
  | mrv =>
    unfold find_empty_location mrv_heuristic at hf
    cases hx : allCells.foldl (mrvStep board) none with
    | none => rw [hx] at hf; cases hf
    | some x =>
      rw [hx] at hf
      have hxp : x.1 = p := by simpa using hf
      rcases foldl_sel_some (fun h => mrvStep_some h) allCells none x hx with
        habs | hmem
      · cases habs
      · rw [← hxp]; exact hmem

theorem find_empty_none {board : Board} {h : Heuristic}
    (hf : find_empty_location board h = none) :
    ∀ p ∈ allCells, bget board p.1 p.2 ≠ 0 := by
  cases h with
  | none =>
    unfold find_empty_location at hf
    intro p hp
    have := List.find?_eq_none.mp hf p hp
    simpa using this
  | degree =>
    unfold find_empty_location degree_heuristic at hf
    cases hx : allCells.foldl (degStep board) none with
    | none =>
      exact (foldl_sel_none (fun h => degStep_none h) allCells none hx).2
    | some x => rw [hx] at hf; cases hf
  | mrv =>
    unfold find_empty_location mrv_heuristic at hf
    cases hx : allCells.foldl (mrvStep board) none with
    | none =>
      exact (foldl_sel_none (fun h => mrvStep_none h) allCells none hx).2
    | some x => rw [hx] at hf; cases hf

/-! ## The backtracking loop: stepping and restoration -/

theorem tryNumsF_cons (solveRec : Board → Board × Bool)
    (hres : ∀ b, (solveRec b).2 = false → (solveRec b).1 = b)
    (board : Board) (r c : Nat) (h0 : bget board r c = 0) (n : Nat)
    (ns : List Nat) :
    tryNumsF solveRec board r c (n :: ns) =
      if is_safe board r c n then
        if (solveRec (bset board r c n)).2 then solveRec (bset board r c n)
        else tryNumsF solveRec board r c ns
      else tryNumsF solveRec board r c ns := by
  by_cases hs : is_safe board r c n = true
  · rw [if_pos hs]
    by_cases hr : (solveRec (bset board r c n)).2 = true
    · rw [if_pos hr]
      simp only [tryNumsF, if_pos hs, if_pos hr]
    · rw [if_neg hr]
      have hb : (solveRec (bset board r c n)).1 = bset board r c n :=
        hres _ (by simpa using hr)
      simp only [tryNumsF, if_pos hs, if_neg hr]
      rw [hb, bset_restore board r c n h0]
  · rw [if_neg hs]
    simp only [tryNumsF, if_neg hs]

theorem tryNumsF_fail (solveRec : Board → Board × Bool)
    (hres : ∀ b, (solveRec b).2 = false → (solveRec b).1 = b) :
    ∀ (ns : List Nat) (board : Board) (r c : Nat), bget board r c = 0 →
      (tryNumsF solveRec board r c ns).2 = false →
      (tryNumsF solveRec board r c ns).1 = board := by
  intro ns
  induction ns with
  | nil => intro board r c _ _; rfl
  | cons n t ih =>
    intro board r c h0 hfalse
    rw [tryNumsF_cons solveRec hres board r c h0 n t] at hfalse ⊢
    by_cases hs : is_safe board r c n = true
    · rw [if_pos hs] at hfalse ⊢
      by_cases hr : (solveRec (bset board r c n)).2 = true
      · rw [if_pos hr] at hfalse
        exact absurd hfalse (by simp [hr])
      · rw [if_neg hr] at hfalse ⊢
        exact ih board r c h0 hfalse
    · rw [if_neg hs] at hfalse ⊢
      exact ih board r c h0 hfalse

theorem solveFuel_fail_board :
    ∀ (fuel : Nat) (m : Method) (h : Heuristic) (board : Board),
      (solveFuel fuel m h board).2 = false →
      (solveFuel fuel m h board).1 = board := by
  intro fuel
  induction fuel with
  | zero => intro m h board _; rfl
  | succ fuel ih =>
    intro m h board hfalse
    simp only [solveFuel] at hfalse ⊢
    by_cases hgate : ((m == Method.arc) && !(ac board)) = true
    · rw [if_pos hgate] at hfalse ⊢
    · rw [if_neg hgate] at hfalse ⊢
      cases hfe : find_empty_location board h with
      | none =>
        rw [hfe] at hfalse
      | some rc =>
        rw [hfe] at hfalse
        exact tryNumsF_fail (solveFuel fuel m h) (fun b => ih m h b) nums
          board rc.1 rc.2 (find_empty_some hfe).2 hfalse

theorem tryNumsF_preserve (solveRec : Board → Board × Bool)
    (hres : ∀ b, (solveRec b).2 = false → (solveRec b).1 = b)
    {r' c' : Nat}
    (hpres : ∀ b, bget b r' c' ≠ 0 →
      bget (solveRec b).1 r' c' = bget b r' c') :
    ∀ (ns : List Nat) (board : Board) (r c : Nat), bget board r c = 0 →
      bget board r' c' ≠ 0 →
      bget (tryNumsF solveRec board r c ns).1 r' c' = bget board r' c' := by
  intro ns
  induction ns with
  | nil => intro board r c _ _; rfl
  | cons n t ih =>
    intro board r c h0 hnz
    rw [tryNumsF_cons solveRec hres board r c h0 n t]
    by_cases hs : is_safe board r c n = true
    · rw [if_pos hs]
      by_cases hr : (solveRec (bset board r c n)).2 = true
      · rw [if_pos hr]
        have hne : (r, c) ≠ (r', c') := by
          intro e
          rw [show r' = r from (congrArg Prod.fst e).symm,
            show c' = c from (congrArg Prod.snd e).symm] at hnz
          exact hnz h0
        have h1 : bget (bset board r c n) r' c' = bget board r' c' :=
          bget_bset_ne board n hne
        rw [hpres _ (by rw [h1]; exact hnz), h1]
      · rw [if_neg hr]
        exact ih board r c h0 hnz
    · rw [if_neg hs]
      exact ih board r c h0 hnz

theorem solveFuel_preserve :
    ∀ (fuel : Nat) (m : Method) (h : Heuristic) (board : Board) (r' c' : Nat),
      bget board r' c' ≠ 0 →
      bget (solveFuel fuel m h board).1 r' c' = bget board r' c' := by
  intro fuel
  induction fuel with
  | zero => intro m h board r' c' _; rfl
  | succ fuel ih =>
    intro m h board r' c' hnz
    simp only [solveFuel]
    by_cases hgate : ((m == Method.arc) && !(ac board)) = true
    · rw [if_pos hgate]
    · rw [if_neg hgate]
      cases hfe : find_empty_location board h with
      | none => rfl
      | some rc =>
        exact tryNumsF_preserve (solveFuel fuel m h) (fun b => solveFuel_fail_board fuel m h b)
          (fun b => ih m h b r' c') nums board rc.1 rc.2
          (find_empty_some hfe).2 hnz

theorem tryNumsF_nozeros (solveRec : Board → Board × Bool)
    (hres : ∀ b, (solveRec b).2 = false → (solveRec b).1 = b)
    (hsucc : ∀ b, (solveRec b).2 = true → NoZeros (solveRec b).1) :
    ∀ (ns : List Nat) (board : Board) (r c : Nat), bget board r c = 0 →
      (tryNumsF solveRec board r c ns).2 = true →
      NoZeros (tryNumsF solveRec board r c ns).1 := by
  intro ns
  induction ns with
  | nil =>
    intro board r c _ htrue
    exact absurd htrue (by simp [tryNumsF])
  | cons n t ih =>
    intro board r c h0 htrue
    rw [tryNumsF_cons solveRec hres board r c h0 n t] at htrue ⊢
    by_cases hs : is_safe board r c n = true
    · rw [if_pos hs] at htrue ⊢
      by_cases hr : (solveRec (bset board r c n)).2 = true
      · rw [if_pos hr] at htrue ⊢
        exact hsucc _ hr
      · rw [if_neg hr] at htrue ⊢
        exact ih board r c h0 htrue
    · rw [if_neg hs] at htrue ⊢
      exact ih board r c h0 htrue

theorem solveFuel_nozeros :
    ∀ (fuel : Nat) (m : Method) (h : Heuristic) (board : Board),
      (solveFuel fuel m h board).2 = true →
      NoZeros (solveFuel fuel m h board).1 := by
  intro fuel
  induction fuel with
  | zero =>
    intro m h board htrue
    exact absurd htrue (by simp [solveFuel])
  | succ fuel ih =>
    intro m h board htrue
    simp only [solveFuel] at htrue ⊢
    by_cases hgate : ((m == Method.arc) && !(ac board)) = true
    · rw [if_pos hgate] at htrue
      simp at htrue
    · rw [if_neg hgate] at htrue ⊢
      cases hfe : find_empty_location board h with
      | none =>
        intro p hp
        exact find_empty_none hfe p hp
      | some rc =>
        rw [hfe] at htrue
        exact tryNumsF_nozeros (solveFuel fuel m h)
          (fun b => solveFuel_fail_board fuel m h b) (fun b => ih m h b)
          nums board rc.1 rc.2 (find_empty_some hfe).2 htrue

theorem wf_cells_le9 {board : Board} (hwf : WF board) :
    ∀ p ∈ allCells, bget board p.1 p.2 ≤ 9 := by
  intro p _
  unfold bget
  by_cases hr : p.1 < board.length
  · have hrow : board.getD p.1 [] = board[p.1] := by
      rw [List.getD_eq_getElem?_getD, List.getElem?_eq_getElem hr]
      rfl
    rw [hrow]
    by_cases hc : p.2 < board[p.1].length
    · have hv : (board[p.1]).getD p.2 0 = board[p.1][p.2] := by
        rw [List.getD_eq_getElem?_getD, List.getElem?_eq_getElem hc]
        rfl
      rw [hv]
      exact hwf.2 _ (List.getElem_mem hr) _ (List.getElem_mem hc)
    · rw [List.getD_eq_getElem?_getD, List.getElem?_eq_none (by omega)]
      exact Nat.zero_le 9
  · have : board.getD p.1 [] = [] := by
      rw [List.getD_eq_getElem?_getD, List.getElem?_eq_none (by omega)]
      rfl
    rw [this]
    exact Nat.zero_le 9

theorem bget_bset_le9 {board : Board} {v : Nat}
    (hb : ∀ p ∈ allCells, bget board p.1 p.2 ≤ 9) (hv : v ≤ 9) (r c : Nat) :
    ∀ p ∈ allCells, bget (bset board r c v) p.1 p.2 ≤ 9 := by
  intro p hp
  rcases bget_bset_cases board r c v p.1 p.2 with h | h
  · rw [h]; exact hb p hp
  · rw [h]; exact hv

theorem tryNumsF_le9 (solveRec : Board → Board × Bool)
    (hres : ∀ b, (solveRec b).2 = false → (solveRec b).1 = b)
    (hle : ∀ b, (∀ p ∈ allCells, bget b p.1 p.2 ≤ 9) →
      ∀ p ∈ allCells, bget (solveRec b).1 p.1 p.2 ≤ 9) :
    ∀ (ns : List Nat), (∀ n ∈ ns, n ≤ 9) →
      ∀ (board : Board) (r c : Nat), bget board r c = 0 →
      (∀ p ∈ allCells, bget board p.1 p.2 ≤ 9) →
      ∀ p ∈ allCells, bget (tryNumsF solveRec board r c ns).1 p.1 p.2 ≤ 9 := by
  intro ns
  induction ns with
  | nil => intro _ board r c _ hb; exact hb
  | cons n t ih =>
    intro hns board r c h0 hb
    rw [tryNumsF_cons solveRec hres board r c h0 n t]
    have hn9 : n ≤ 9 := hns n (List.mem_cons_self n t)
    have ht9 : ∀ x ∈ t, x ≤ 9 := fun x hx => hns x (List.mem_cons_of_mem _ hx)
    by_cases hs : is_safe board r c n = true
    · rw [if_pos hs]
      by_cases hr : (solveRec (bset board r c n)).2 = true
      · rw [if_pos hr]
        exact hle _ (bget_bset_le9 hb hn9 r c)
      · rw [if_neg hr]
        exact ih ht9 board r c h0 hb
    · rw [if_neg hs]
      exact ih ht9 board r c h0 hb

theorem solveFuel_le9 :
    ∀ (fuel : Nat) (m : Method) (h : Heuristic) (board : Board),
      (∀ p ∈ allCells, bget board p.1 p.2 ≤ 9) →
      ∀ p ∈ allCells, bget (solveFuel fuel m h board).1 p.1 p.2 ≤ 9 := by
  intro fuel
  induction fuel with
  | zero => intro m h board hb; exact hb
  | succ fuel ih =>
    intro m h board hb
    simp only [solveFuel]
    by_cases hgate : ((m == Method.arc) && !(ac board)) = true
    · rw [if_pos hgate]; exact hb
    · rw [if_neg hgate]
      cases hfe : find_empty_location board h with
      | none => exact hb
      | some rc =>
        exact tryNumsF_le9 (solveFuel fuel m h)
          (fun b => solveFuel_fail_board fuel m h b) (fun b => ih m h b)
          nums (by decide) board rc.1 rc.2 (find_empty_some hfe).2 hb

theorem tryNumsF_shape (solveRec : Board → Board × Bool)
    (hres : ∀ b, (solveRec b).2 = false → (solveRec b).1 = b)
    (hshape : ∀ b, Shape9 b → Shape9 (solveRec b).1) :
    ∀ (ns : List Nat) (board : Board) (r c : Nat), bget board r c = 0 →
      Shape9 board → Shape9 (tryNumsF solveRec board r c ns).1 := by
  intro ns
  induction ns with
  | nil => intro board r c _ hb; exact hb
  | cons n t ih =>
    intro board r c h0 hb
    rw [tryNumsF_cons solveRec hres board r c h0 n t]
    by_cases hs : is_safe board r c n = true
    · rw [if_pos hs]
      by_cases hr : (solveRec (bset board r c n)).2 = true
      · rw [if_pos hr]
        exact hshape _ (shape9_bset hb r c n)
      · rw [if_neg hr]
        exact ih board r c h0 hb
    · rw [if_neg hs]
      exact ih board r c h0 hb

theorem solveFuel_shape :
    ∀ (fuel : Nat) (m : Method) (h : Heuristic) (board : Board),
      Shape9 board → Shape9 (solveFuel fuel m h board).1 := by
  intro fuel
  induction fuel with
  | zero => intro m h board hb; exact hb
  | succ fuel ih =>
    intro m h board hb
    simp only [solveFuel]
    by_cases hgate : ((m == Method.arc) && !(ac board)) = true
    · rw [if_pos hgate]; exact hb
    · rw [if_neg hgate]
      cases hfe : find_empty_location board h with
      | none => exact hb
      | some rc =>
        exact tryNumsF_shape (solveFuel fuel m h)
          (fun b => solveFuel_fail_board fuel m h b) (fun b => ih m h b)
          nums board rc.1 rc.2 (find_empty_some hfe).2 hb

/-! ## Soundness: a successful search only ever violates constraints between
two cells that were both fixed in the input -/

theorem tryNumsF_pairs (solveRec : Board → Board × Bool)
    (hres : ∀ b, (solveRec b).2 = false → (solveRec b).1 = b)
    (hpres : ∀ b r' c', bget b r' c' ≠ 0 →
      bget (solveRec b).1 r' c' = bget b r' c')
    (hpairs : ∀ b, (solveRec b).2 = true → PairsOK b (solveRec b).1) :
    ∀ (ns : List Nat) (board : Board) (r c : Nat), bget board r c = 0 →
      (tryNumsF solveRec board r c ns).2 = true →
      PairsOK board (tryNumsF solveRec board r c ns).1 := by
  intro ns
  induction ns with
  | nil =>
    intro board r c _ htrue
    exact absurd htrue (by simp [tryNumsF])
  | cons n t ih =>
    intro board r c h0 htrue
    rw [tryNumsF_cons solveRec hres board r c h0 n t] at htrue ⊢
    by_cases hs : is_safe board r c n = true
    · rw [if_pos hs] at htrue ⊢
      by_cases hr : (solveRec (bset board r c n)).2 = true
      · rw [if_pos hr] at htrue ⊢
        intro p hp q hq hpeer hzero
        by_cases hz' : bget (bset board r c n) p.1 p.2 = 0 ∨
            bget (bset board r c n) q.1 q.2 = 0
        · exact hpairs _ hr p hp q hq hpeer hz'
        · push_neg at hz'
          obtain ⟨hzp', hzq'⟩ := hz'
          have key : ∀ x y : Nat × Nat, x ∈ allCells → y ∈ allCells →
              isPeerPair x y → bget board x.1 x.2 = 0 →
              bget (bset board r c n) x.1 x.2 ≠ 0 →
              bget (bset board r c n) y.1 y.2 ≠ 0 →
              bget (solveRec (bset board r c n)).1 x.1 x.2 ≠
                bget (solveRec (bset board r c n)).1 y.1 y.2 := by
            intro x y hx hy hxy hx0 hxnz hynz
            have hx_eq : x = (r, c) := by
              by_contra hne
              have hxx : bget (bset board r c n) x.1 x.2 =
                  bget board x.1 x.2 :=
                bget_bset_ne board n (fun e => hne e.symm)
              rw [hxx, hx0] at hxnz
              exact hxnz rfl
            have hbx : bget (bset board r c n) r c = n := by
              rcases bget_bset_cases board r c n r c with hcase | hcase
              · rw [hx_eq] at hxnz
                rw [hcase, h0] at hxnz
                exact absurd rfl hxnz
              · exact hcase
            have hy_ne : y ≠ (r, c) := by
              intro e
              exact hxy.1 (hx_eq.trans e.symm)
            have hby : bget (bset board r c n) y.1 y.2 =
                bget board y.1 y.2 :=
              bget_bset_ne board n (fun e => hy_ne e.symm)
            have hfy : bget (solveRec (bset board r c n)).1 y.1 y.2 =
                bget board y.1 y.2 := by
              rw [hpres _ y.1 y.2 hynz, hby]
            have hfx : bget (solveRec (bset board r c n)).1 x.1 x.2 = n := by
              rw [hx_eq]
              have hxnz' : bget (bset board r c n) r c ≠ 0 := by
                rw [hx_eq] at hxnz
                exact hxnz
              have := hpres (bset board r c n) r c hxnz'
              rw [this, hbx]
            have hsafe_y : bget board y.1 y.2 ≠ n := by
              apply is_safe_peer hs hy
              rw [← hx_eq]
              exact hxy
            rw [hfx, hfy]
            exact fun e => hsafe_y (e.symm)
          rcases hzero with hzp | hzq
          · exact key p q hp hq hpeer hzp hzp' hzq'
          · have := key q p hq hp (isPeerPair_symm hpeer) hzq hzq' hzp'
            exact fun e => this e.symm
      · rw [if_neg hr] at htrue ⊢
        exact ih board r c h0 htrue
    · rw [if_neg hs] at htrue ⊢
      exact ih board r c h0 htrue

theorem solveFuel_pairs :
    ∀ (fuel : Nat) (m : Method) (h : Heuristic) (board : Board),
      (solveFuel fuel m h board).2 = true →
      PairsOK board (solveFuel fuel m h board).1 := by
  intro fuel
  induction fuel with
  | zero =>
    intro m h board htrue
    exact absurd htrue (by simp [solveFuel])
  | succ fuel ih =>
    intro m h board htrue
    simp only [solveFuel] at htrue ⊢
    by_cases hgate : ((m == Method.arc) && !(ac board)) = true
    · rw [if_pos hgate] at htrue
      simp at htrue
    · rw [if_neg hgate] at htrue ⊢
      cases hfe : find_empty_location board h with
      | none =>
        intro p hp q hq hpeer hzero
        rcases hzero with hz | hz
        · exact absurd hz (find_empty_none hfe p hp)
        · exact absurd hz (find_empty_none hfe q hq)
      | some rc =>
        rw [hfe] at htrue
        exact tryNumsF_pairs (solveFuel fuel m h)
          (fun b => solveFuel_fail_board fuel m h b)
          (fun b r' c' => solveFuel_preserve fuel m h b r' c')
          (fun b => ih m h b) nums board rc.1 rc.2
          (find_empty_some hfe).2 htrue

/-- Soundness of the search: on success the result is a `SolWitness`. -/
theorem solveFuel_witness (fuel : Nat) (m : Method) (h : Heuristic)
    (board : Board) (hwf : WF board)
    (hsucc : (solveFuel fuel m h board).2 = true) :
    SolWitness board (solveFuel fuel m h board).1 := by
  refine ⟨solveFuel_shape fuel m h board hwf.1, ?_, ?_, solveFuel_pairs fuel m h board hsucc⟩
  · intro p hp
    have h1 := solveFuel_nozeros fuel m h board hsucc p hp
    have h2 := solveFuel_le9 fuel m h board (wf_cells_le9 hwf) p hp
    omega
  · intro p hp hnz
    exact solveFuel_preserve fuel m h board p.1 p.2 hnz

/-! ## Soundness of the AC-3 propagator: it cannot fail on a board that a
successful search could complete -/

theorem mem_domain19 {v : Nat} : v ∈ domain19 ↔ 1 ≤ v ∧ v ≤ 9 := by
  simp only [domain19, List.mem_cons, List.not_mem_nil, or_false]
  omega

theorem mem_get_neighbors {n : Nat × Nat} {r c : Nat} :
    n ∈ get_neighbors r c 9 9 ↔ n ∈ allCells ∧ isPeerPair n (r, c) := by
  unfold get_neighbors
  rw [List.mem_filter]
  constructor
  · rintro ⟨hbase, hpred⟩
    simp only [Bool.and_eq_true, decide_eq_true_eq, Bool.or_eq_true,
      beq_iff_eq] at hpred
    have hd : n.1 = r ∨ n.2 = c ∨ (n.1 / 3 = r / 3 ∧ n.2 / 3 = c / 3) := by
      tauto
    exact ⟨hbase, hpred.1, hd⟩
  · rintro ⟨hmem, hne, hdisj⟩
    have hd : n.1 = r ∨ n.2 = c ∨ (n.1 / 3 = r / 3 ∧ n.2 / 3 = c / 3) := hdisj
    refine ⟨hmem, ?_⟩
    simp only [Bool.and_eq_true, decide_eq_true_eq, Bool.or_eq_true,
      beq_iff_eq]
    exact ⟨hne, by tauto⟩

theorem mem_initQueue {board : Board} {a : (Nat × Nat) × (Nat × Nat)}
    (ha : a ∈ initQueue board 9 9) :
    a.1 ∈ allCells ∧ a.2 ∈ allCells ∧ isPeerPair a.1 a.2 ∧
      bget board a.1.1 a.1.2 = 0 := by
  unfold initQueue at ha
  rw [List.mem_flatMap] at ha
  obtain ⟨r, hr, ha⟩ := ha
  rw [List.mem_flatMap] at ha
  obtain ⟨c, hc, ha⟩ := ha
  by_cases hz : (bget board r c == 0) = true
  · rw [if_pos hz] at ha
    rw [List.mem_map] at ha
    obtain ⟨n, hn, rfl⟩ := ha
    have hmem := mem_get_neighbors.mp hn
    refine ⟨mem_allCells.mpr ⟨List.mem_range.mp hr, List.mem_range.mp hc⟩,
      hmem.1, isPeerPair_symm hmem.2, by simpa using hz⟩
  · rw [if_neg hz] at ha
    exact absurd ha (List.not_mem_nil _)

theorem acLoop_sound (b f : Board)
    (hagree : ∀ p ∈ allCells, bget b p.1 p.2 ≠ 0 →
      bget f p.1 p.2 = bget b p.1 p.2)
    (hpairs : ∀ p ∈ allCells, ∀ q ∈ allCells, isPeerPair p q →
      (bget b p.1 p.2 = 0 ∨ bget b q.1 q.2 = 0) →
      bget f p.1 p.2 ≠ bget f q.1 q.2) :
    ∀ (fuel : Nat) (domains : (Nat × Nat) → List Nat)
      (queue : List ((Nat × Nat) × (Nat × Nat))),
      (∀ p ∈ allCells, bget f p.1 p.2 ∈ domains p) →
      (∀ p ∈ allCells, bget b p.1 p.2 ≠ 0 →
        domains p = [bget b p.1 p.2]) →
      (∀ a ∈ queue, a.1 ∈ allCells ∧ a.2 ∈ allCells ∧
        isPeerPair a.1 a.2 ∧
        (bget b a.1.1 a.1.2 = 0 ∨ bget b a.2.1 a.2.2 = 0)) →
      acLoop 9 9 fuel domains queue = true := by
  intro fuel
  induction fuel with
  | zero => intro domains queue _ _ _; rfl
  | succ fuel ih =>
    intro domains queue hdom hsing hq
    cases queue with
    | nil => rfl
    | cons arc rest =>
      obtain ⟨A, B⟩ := arc
      obtain ⟨hA, hB, hAB, hz⟩ := hq (A, B) (List.mem_cons_self _ _)
      have hfAB : bget f A.1 A.2 ≠ bget f B.1 B.2 := hpairs A hA B hB hAB hz
      have hfA : bget f A.1 A.2 ∈ domains A := hdom A hA
      have hfB : bget f B.1 B.2 ∈ domains B := hdom B hB
      have hfA_new : bget f A.1 A.2 ∈
          (domains A).filter fun x => (domains B).any fun y =>
            is_consistent x y := by
        rw [List.mem_filter]
        refine ⟨hfA, ?_⟩
        rw [List.any_eq_true]
        refine ⟨bget f B.1 B.2, hfB, ?_⟩
        simp only [is_consistent, bne_iff_ne, ne_eq]
        exact hfAB
      simp only [acLoop]
      by_cases hlen : ((domains A).filter fun x => (domains B).any fun y =>
          is_consistent x y).length = (domains A).length
      · have hrev : revise domains A B = (domains, false) := by
          unfold revise
          exact if_pos hlen
        rw [hrev]
        exact ih domains rest hdom hsing
          (fun a ha => hq a (List.mem_cons_of_mem _ ha))
      · have hrev : revise domains A B =
            ((fun q => if q = A then
                (domains A).filter fun x => (domains B).any fun y =>
                  is_consistent x y
              else domains q), true) := by
          unfold revise
          exact if_neg hlen
        have hA0 : bget b A.1 A.2 = 0 := by
          by_contra hnz
          apply hlen
          have hdA : domains A = [bget b A.1 A.2] := hsing A hA hnz
          have hfAv : bget f A.1 A.2 = bget b A.1 A.2 := hagree A hA hnz
          have hpred : ((domains B).any fun y =>
              is_consistent (bget b A.1 A.2) y) = true := by
            rcases List.mem_filter.mp hfA_new with ⟨_, hpred⟩
            rw [← hfAv]
            exact hpred
          rw [hdA, List.filter_cons, if_pos hpred]
          rfl
        have hnewd0 : ¬((domains A).filter fun x => (domains B).any fun y =>
            is_consistent x y).length = 0 := by
          intro h0
          rw [List.length_eq_zero] at h0
          rw [h0] at hfA_new
          exact absurd hfA_new (List.not_mem_nil _)
        rw [hrev]
        dsimp only
        rw [if_pos rfl, if_pos rfl, if_neg hnewd0]
        apply ih
        · intro p hp
          dsimp only
          by_cases hpA : p = A
          · subst hpA
            rw [if_pos rfl]
            exact hfA_new
          · rw [if_neg hpA]
            exact hdom p hp
        · intro p hp hnz
          dsimp only
          by_cases hpA : p = A
          · subst hpA
            exact absurd hA0 hnz
          · rw [if_neg hpA]
            exact hsing p hp hnz
        · intro a ha
          rcases List.mem_append.mp ha with hrest | hnew
          · exact hq a (List.mem_cons_of_mem _ hrest)
          · rw [List.mem_map] at hnew
            obtain ⟨n, hn, rfl⟩ := hnew
            rw [List.mem_filter] at hn
            have hmem := mem_get_neighbors.mp hn.1
            exact ⟨hmem.1, hA, hmem.2, Or.inr hA0⟩

theorem ac_sound {board f : Board} (hsh : Shape9 board)
    (hw : SolWitness board f) : ac board = true := by
  obtain ⟨hfsh, hdig, hext, hpairs⟩ := hw
  have hc0 : (board.getD 0 []).length = 9 := row_length hsh (by omega)
  simp only [ac]
  rw [hsh.1, hc0]
  apply acLoop_sound board f hext hpairs
  · intro p hp
    unfold initDomains
    by_cases hz : (bget board p.1 p.2 == 0) = true
    · rw [if_pos hz]
      rw [mem_domain19]
      exact hdig p hp
    · rw [if_neg hz]
      have hnz : bget board p.1 p.2 ≠ 0 := by simpa using hz
      rw [hext p hp hnz]
      exact List.mem_singleton.mpr rfl
  · intro p hp hnz
    unfold initDomains
    rw [if_neg (by simpa using hnz)]
  · intro a ha
    have := mem_initQueue ha
    exact ⟨this.1, this.2.1, this.2.2.1, Or.inl this.2.2.2⟩

/-! ## Completeness: the search succeeds whenever a witness exists -/

theorem mem_nums {v : Nat} (h1 : 1 ≤ v) (h9 : v ≤ 9) : v ∈ nums := by
  unfold nums
  exact mem_domain19.mpr ⟨h1, h9⟩

theorem tryNumsF_complete (solveRec : Board → Board × Bool)
    (hres : ∀ b, (solveRec b).2 = false → (solveRec b).1 = b) {v : Nat} :
    ∀ (ns : List Nat) (board : Board) (r c : Nat), bget board r c = 0 →
      v ∈ ns → is_safe board r c v = true →
      (solveRec (bset board r c v)).2 = true →
      (tryNumsF solveRec board r c ns).2 = true := by
  intro ns
  induction ns with
  | nil => intro board r c _ hv _ _; cases hv
  | cons n t ih =>
    intro board r c h0 hv hsafe hsucc
    rw [tryNumsF_cons solveRec hres board r c h0 n t]
    rcases List.mem_cons.mp hv with rfl | hvt
    · rw [if_pos hsafe, if_pos hsucc]
      exact hsucc
    · by_cases hs : is_safe board r c n = true
      · rw [if_pos hs]
        by_cases hr : (solveRec (bset board r c n)).2 = true
        · rw [if_pos hr]
          exact hr
        · rw [if_neg hr]
          exact ih board r c h0 hvt hsafe hsucc
      · rw [if_neg hs]
        exact ih board r c h0 hvt hsafe hsucc

theorem solveFuel_complete (b0 f : Board) (hw : SolWitness b0 f) :
    ∀ (fuel : Nat) (m : Method) (h : Heuristic) (b : Board),
      countZeros b < fuel → Shape9 b →
      (∀ p ∈ allCells, bget b p.1 p.2 ≠ 0 →
        bget f p.1 p.2 = bget b p.1 p.2) →
      (∀ p ∈ allCells, bget b0 p.1 p.2 ≠ 0 → bget b p.1 p.2 ≠ 0) →
      (solveFuel fuel m h b).2 = true := by
  obtain ⟨hfsh, hdig, hext, hpairs⟩ := hw
  intro fuel
  induction fuel with
  | zero =>
    intro m h b hlt _ _ _
    exact absurd hlt (Nat.not_lt_zero _)
  | succ fuel ih =>
    intro m h b hlt hsh hagree hz
    simp only [solveFuel]
    have hgate : ((m == Method.arc) && !(ac b)) = false := by
      cases m with
      | backtracking => rfl
      | arc =>
        have hac : ac b = true := by
          apply ac_sound hsh (f := f)
          refine ⟨hfsh, hdig, hagree, ?_⟩
          intro p hp q hq hpeer hzero
          apply hpairs p hp q hq hpeer
          rcases hzero with h1 | h1
          · left
            by_contra hnz
            exact (hz p hp hnz) h1
          · right
            by_contra hnz
            exact (hz q hq hnz) h1
        rw [hac]
        rfl
    simp only [hgate, Bool.false_eq_true, if_false]
    cases hfe : find_empty_location b h with
    | none => rfl
    | some rc =>
      obtain ⟨hrc_mem, hrc0⟩ := find_empty_some hfe
      obtain ⟨hr9, hc9⟩ := mem_allCells.mp hrc_mem
      have hv19 : 1 ≤ bget f rc.1 rc.2 ∧ bget f rc.1 rc.2 ≤ 9 :=
        hdig rc hrc_mem
      have hrc_b0 : bget b0 rc.1 rc.2 = 0 := by
        by_contra hnz
        exact (hz rc hrc_mem hnz) hrc0
      have hsafe : is_safe b rc.1 rc.2 (bget f rc.1 rc.2) = true := by
        apply is_safe_of_cells hr9 hc9
        intro q hq hcond
        by_cases hqz : bget b q.1 q.2 = 0
        · rw [hqz]
          omega
        · have hqrc : q ≠ rc := by
            intro e
            rw [e] at hqz
            exact hqz hrc0
          have hpeer : isPeerPair rc q := by
            refine ⟨fun e => hqrc e.symm, ?_⟩
            rcases hcond with h1 | h1 | h1
            · exact Or.inl h1.symm
            · exact Or.inr (Or.inl h1.symm)
            · exact Or.inr (Or.inr ⟨h1.1.symm, h1.2.symm⟩)
          have hbq : bget f q.1 q.2 = bget b q.1 q.2 := hagree q hq hqz
          have hne := hpairs rc hrc_mem q hq hpeer (Or.inl hrc_b0)
          rw [← hbq]
          exact fun e => hne e.symm
      have hnext :
          (solveFuel fuel m h (bset b rc.1 rc.2 (bget f rc.1 rc.2))).2 =
            true := by
        apply ih m h
        · have := countZeros_bset hsh hr9 hc9 hrc0
            (v := bget f rc.1 rc.2) (by omega)
          omega
        · exact shape9_bset hsh rc.1 rc.2 _
        · intro p hp hnz
          by_cases hprc : p = rc
          · subst hprc
            have hval : bget (bset b p.1 p.2 (bget f p.1 p.2)) p.1 p.2 =
                bget f p.1 p.2 := by
              apply bget_bset_self
              · rw [hsh.1]; exact hr9
              · rw [row_length hsh hr9]; exact hc9
            rw [hval]
          · have hval : bget (bset b rc.1 rc.2 (bget f rc.1 rc.2)) p.1 p.2 =
                bget b p.1 p.2 :=
              bget_bset_ne b _ (fun e => hprc e.symm)
            rw [hval] at hnz ⊢
            exact hagree p hp hnz
        · intro p hp hnz
          by_cases hprc : p = rc
          · subst hprc
            have hval : bget (bset b p.1 p.2 (bget f p.1 p.2)) p.1 p.2 =
                bget f p.1 p.2 := by
              apply bget_bset_self
              · rw [hsh.1]; exact hr9
              · rw [row_length hsh hr9]; exact hc9
            rw [hval]
            omega
          · have hval : bget (bset b rc.1 rc.2 (bget f rc.1 rc.2)) p.1 p.2 =
                bget b p.1 p.2 :=
              bget_bset_ne b _ (fun e => hprc e.symm)
            rw [hval]
            exact hz p hp hnz
      exact tryNumsF_complete (solveFuel fuel m h)
        (fun b' => solveFuel_fail_board fuel m h b') nums b rc.1 rc.2 hrc0
        (mem_nums hv19.1 hv19.2) hsafe hnext

/-! ## Fuel stability and the arc/backtracking relationship -/

theorem nums_le9 {n : Nat} (hn : n ∈ nums) : n ≤ 9 := by
  simp only [nums, domain19, List.mem_cons, List.not_mem_nil, or_false] at hn
  omega

theorem nums_ne0 {n : Nat} (hn : n ∈ nums) : n ≠ 0 := by
  simp only [nums, domain19, List.mem_cons, List.not_mem_nil, or_false] at hn
  omega

theorem countZeros_pos {board : Board} {p : Nat × Nat} (hp : p ∈ allCells)
    (h0 : bget board p.1 p.2 = 0) : 0 < countZeros board := by
  unfold countZeros
  rw [List.countP_pos_iff]
  exact ⟨p, hp, by simpa using h0⟩

theorem tryNumsF_congr (sr1 sr2 : Board → Board × Bool)
    (hres1 : ∀ b, (sr1 b).2 = false → (sr1 b).1 = b)
    (hres2 : ∀ b, (sr2 b).2 = false → (sr2 b).1 = b) :
    ∀ (ns : List Nat) (board : Board) (r c : Nat), bget board r c = 0 →
      (∀ n ∈ ns, sr1 (bset board r c n) = sr2 (bset board r c n)) →
      tryNumsF sr1 board r c ns = tryNumsF sr2 board r c ns := by
  intro ns
  induction ns with
  | nil => intros; rfl
  | cons n t ih =>
    intro board r c h0 heq
    rw [tryNumsF_cons sr1 hres1 board r c h0 n t,
      tryNumsF_cons sr2 hres2 board r c h0 n t,
      heq n (List.mem_cons_self n t)]
    have hih := ih board r c h0
      (fun x hx => heq x (List.mem_cons_of_mem _ hx))
    by_cases hs : is_safe board r c n = true
    · rw [if_pos hs, if_pos hs]
      by_cases hr : (sr2 (bset board r c n)).2 = true
      · rw [if_pos hr, if_pos hr]
      · rw [if_neg hr, if_neg hr]
        exact hih
    · rw [if_neg hs, if_neg hs]
      exact hih

theorem solveFuel_stable :
    ∀ (f1 f2 : Nat) (m : Method) (h : Heuristic) (b : Board), WF b →
      countZeros b < f1 → countZeros b < f2 →
      solveFuel f1 m h b = solveFuel f2 m h b := by
  intro f1
  induction f1 with
  | zero =>
    intro f2 m h b _ h1 _
    exact absurd h1 (Nat.not_lt_zero _)
  | succ f1 ih =>
    intro f2 m h b hwf h1 h2
    cases f2 with
    | zero => exact absurd h2 (Nat.not_lt_zero _)
    | succ f2 =>
      simp only [solveFuel]
      by_cases hgate : ((m == Method.arc) && !(ac b)) = true
      · rw [if_pos hgate, if_pos hgate]
      · rw [if_neg hgate, if_neg hgate]
        cases hfe : find_empty_location b h with
        | none => rfl
        | some rc =>
          obtain ⟨hrc_mem, hrc0⟩ := find_empty_some hfe
          obtain ⟨hr9, hc9⟩ := mem_allCells.mp hrc_mem
          apply tryNumsF_congr _ _
            (fun b' => solveFuel_fail_board f1 m h b')
            (fun b' => solveFuel_fail_board f2 m h b')
            nums b rc.1 rc.2 hrc0
          intro n hn
          have hcz := countZeros_bset hwf.1 hr9 hc9 hrc0 (nums_ne0 hn)
          exact ih f2 m h _ (wf_bset hwf _ _ (nums_le9 hn)) (by omega)
            (by omega)

/-- `solve_sudoku` never runs out of fuel: the result at any fuel above the
number of empty cells is the result at fuel `countZeros + 1`. -/
theorem solve_sudoku_eq_fuel (board : Board) (m : Method) (h : Heuristic)
    (hwf : WF board) :
    solve_sudoku board m h = solveFuel (countZeros board + 1) m h board := by
  apply solveFuel_stable 82 (countZeros board + 1) m h board hwf
  · have := countZeros_le board
    omega
  · omega

/-- The search returns `true` exactly when a `SolWitness` exists — for every
method and heuristic. -/
theorem solve_sudoku_iff (board : Board) (m : Method) (h : Heuristic)
    (hwf : WF board) :
    (solve_sudoku board m h).2 = true ↔ ∃ f, SolWitness board f := by
  constructor
  · intro hs
    exact ⟨_, solveFuel_witness 82 m h board hwf hs⟩
  · rintro ⟨f, hw⟩
    exact solveFuel_complete board f hw 82 m h board
      (by have := countZeros_le board; omega) hwf.1
      (fun p hp hnz => hw.2.2.1 p hp hnz) (fun p hp hnz => hnz)

/-- With `method = arc` the solver re-runs `ac` at every recursive call, but
the observable result equals running `ac` once and then plain backtracking. -/
theorem solveFuel_arc_eq :
    ∀ (fuel : Nat) (h : Heuristic) (b : Board), WF b →
      solveFuel fuel Method.arc h b =
        (if ac b = true then solveFuel fuel Method.backtracking h b
         else (b, false)) := by
  intro fuel
  induction fuel with
  | zero =>
    intro h b _
    by_cases hac : ac b = true
    · rw [if_pos hac]
      rfl
    · rw [if_neg hac]
      rfl
  | succ fuel ih =>
    intro h b hwf
    by_cases hac : ac b = true
    · rw [if_pos hac]
      simp only [solveFuel]
      have hg1 : ((Method.arc == Method.arc) && !(ac b)) = false := by
        rw [hac]
        rfl
      have hg2 : ((Method.backtracking == Method.arc) && !(ac b)) = false :=
        rfl
      simp only [hg1, hg2, Bool.false_eq_true, if_false]
      cases hfe : find_empty_location b h with
      | none => rfl
      | some rc =>
        obtain ⟨hrc_mem, hrc0⟩ := find_empty_some hfe
        apply tryNumsF_congr _ _
          (fun b' => solveFuel_fail_board fuel Method.arc h b')
          (fun b' => solveFuel_fail_board fuel Method.backtracking h b')
          nums b rc.1 rc.2 hrc0
        intro n hn
        have hwf' : WF (bset b rc.1 rc.2 n) := wf_bset hwf _ _ (nums_le9 hn)
        rw [ih h _ hwf']
        by_cases hac' : ac (bset b rc.1 rc.2 n) = true
        · rw [if_pos hac']
        · rw [if_neg hac']
          have h2 : (solveFuel fuel Method.backtracking h
              (bset b rc.1 rc.2 n)).2 = false := by
            by_contra htr
            rw [Bool.not_eq_false] at htr
            have hw := solveFuel_witness fuel Method.backtracking h _ hwf' htr
            exact hac' (ac_sound hwf'.1 hw)
          have h1 := solveFuel_fail_board fuel Method.backtracking h _ h2
          have hpair : solveFuel fuel Method.backtracking h
              (bset b rc.1 rc.2 n) =
              ((solveFuel fuel Method.backtracking h (bset b rc.1 rc.2 n)).1,
               (solveFuel fuel Method.backtracking h (bset b rc.1 rc.2 n)).2) :=
            rfl
          rw [hpair, h1, h2]
    · rw [if_neg hac]
      have hacf : ac b = false := by
        cases hh : ac b
        · rfl
        · exact absurd hh hac
      simp only [solveFuel]
      have hg : ((Method.arc == Method.arc) && !(ac b)) = true := by
        rw [hacf]
        rfl
      rw [if_pos hg]

/-! ## Boards with no unassigned cells -/

theorem board_ext {a b : Board} (ha : Shape9 a) (hb : Shape9 b)
    (h : ∀ p ∈ allCells, bget a p.1 p.2 = bget b p.1 p.2) : a = b := by
  apply List.ext_getElem (by rw [ha.1, hb.1])
  intro i hi1 hi2
  have hi9 : i < 9 := ha.1 ▸ hi1
  have hra : a.getD i [] = a[i] := by
    rw [List.getD_eq_getElem?_getD, List.getElem?_eq_getElem hi1]
    rfl
  have hrb : b.getD i [] = b[i] := by
    rw [List.getD_eq_getElem?_getD, List.getElem?_eq_getElem hi2]
    rfl
  have hla : a[i].length = 9 := ha.2 _ (List.getElem_mem hi1)
  have hlb : b[i].length = 9 := hb.2 _ (List.getElem_mem hi2)
  apply List.ext_getElem (by rw [hla, hlb])
  intro j hj1 hj2
  have hj9 : j < 9 := hla ▸ hj1
  have hval := h (i, j) (mem_allCells.mpr ⟨hi9, hj9⟩)
  unfold bget at hval
  rw [hra, hrb] at hval
  rw [List.getD_eq_getElem?_getD, List.getElem?_eq_getElem hj1] at hval
  rw [List.getD_eq_getElem?_getD, List.getElem?_eq_getElem hj2] at hval
  exact hval

theorem witness_unique_of_nozeros {board : Board} (hb : Shape9 board)
    (h0 : NoZeros board) {g : Board} (hg : SolWitness board g) : g = board := by
  apply board_ext hg.1 hb
  intro p hp
  exact hg.2.2.1 p hp (h0 p hp)

theorem ac_of_nozeros {board : Board} (hsh : Shape9 board)
    (h0 : NoZeros board) : ac board = true := by
  simp only [ac]
  rw [hsh.1, row_length hsh (by omega)]
  have hq : initQueue board 9 9 = [] := by
    rw [List.eq_nil_iff_forall_not_mem]
    intro a ha
    have := mem_initQueue ha
    exact h0 a.1 this.1 this.2.2.2
  rw [hq]
  rfl

theorem mrv_of_nozeros {board : Board} (h0 : NoZeros board) :
    mrv_heuristic board = none := by
  unfold mrv_heuristic
  have : ∀ (l : List (Nat × Nat)), (∀ p ∈ l, bget board p.1 p.2 ≠ 0) →
      ∀ acc, l.foldl (mrvStep board) acc = acc := by
    intro l
    induction l with
    | nil => intro _ acc; rfl
    | cons a t ih =>
      intro hl acc
      rw [List.foldl_cons]
      have hstep : mrvStep board acc a = acc := by
        unfold mrvStep
        rw [if_neg (by simpa using hl a (List.mem_cons_self a t))]
      rw [hstep]
      exact ih (fun p hp => hl p (List.mem_cons_of_mem _ hp)) acc
  rw [this allCells h0 none]
  rfl

theorem deg_of_nozeros {board : Board} (h0 : NoZeros board) :
    degree_heuristic board = none := by
  unfold degree_heuristic
  have : ∀ (l : List (Nat × Nat)), (∀ p ∈ l, bget board p.1 p.2 ≠ 0) →
      ∀ acc, l.foldl (degStep board) acc = acc := by
    intro l
    induction l with
    | nil => intro _ acc; rfl
    | cons a t ih =>
      intro hl acc
      rw [List.foldl_cons]
      have hstep : degStep board acc a = acc := by
        unfold degStep
        rw [if_neg (by simpa using hl a (List.mem_cons_self a t))]
      rw [hstep]
      exact ih (fun p hp => hl p (List.mem_cons_of_mem _ hp)) acc
  rw [this allCells h0 none]
  rfl

theorem find_empty_of_nozeros {board : Board} (h0 : NoZeros board)
    (h : Heuristic) : find_empty_location board h = none := by
  cases h with
  | none =>
    unfold find_empty_location
    rw [List.find?_eq_none]
    intro p hp
    simpa using h0 p hp
  | degree => exact deg_of_nozeros h0
  | mrv => exact mrv_of_nozeros h0

theorem solveFuel_succ (fuel : Nat) (m : Method) (h : Heuristic)
    (board : Board) :
    solveFuel (fuel + 1) m h board =
      if (m == Method.arc) && !(ac board) then (board, false)
      else
        match find_empty_location board h with
        | none => (board, true)
        | some rc => tryNumsF (solveFuel fuel m h) board rc.1 rc.2 nums := rfl

theorem solve_nozeros {board : Board} (hwf : WF board) (h0 : NoZeros board)
    (m : Method) (h : Heuristic) : solve_sudoku board m h = (board, true) := by
  show solveFuel (81 + 1) m h board = (board, true)
  rw [solveFuel_succ]
  have hgate : ((m == Method.arc) && !(ac board)) = false := by
    rw [ac_of_nozeros hwf.1 h0]
    cases m <;> rfl
  simp only [hgate, Bool.false_eq_true, if_false]
  rw [find_empty_of_nozeros h0 h]

/-! ## Counting digits in a solved unit -/

theorem unit_count {f : Board} {u : List (Nat × Nat)}
    (hlen : u.length = 9) (hnd : u.Nodup)
    (hvals : ∀ p ∈ u, 1 ≤ bget f p.1 p.2 ∧ bget f p.1 p.2 ≤ 9)
    (hdiff : ∀ p ∈ u, ∀ q ∈ u, p ≠ q →
      bget f p.1 p.2 ≠ bget f q.1 q.2) :
    ∀ d, 1 ≤ d → d ≤ 9 → (unitVals f u).count d = 1 := by
  intro d h1 h9
  have hndv : (unitVals f u).Nodup := by
    unfold unitVals
    apply List.Nodup.map_on ?_ hnd
    intro x hx y hy he
    by_contra hne
    exact hdiff x hx y hy hne he
  have hsubv : unitVals f u ⊆ domain19 := by
    intro v hv
    unfold unitVals at hv
    rw [List.mem_map] at hv
    obtain ⟨p, hp, rfl⟩ := hv
    exact mem_domain19.mpr (hvals p hp)
  have hsp : List.Subperm (unitVals f u) domain19 :=
    List.subperm_of_subset hndv hsubv
  have hlv : (unitVals f u).length = 9 := by
    rw [unitVals, List.length_map, hlen]
  have hperm : List.Perm (unitVals f u) domain19 :=
    hsp.perm_of_length_le (by rw [hlv]; exact Nat.le_refl 9)
  rw [hperm.count_eq]
  interval_cases d <;> rfl

theorem mem_blockIdx {dd : Nat × Nat} : dd ∈ blockIdx ↔ dd.1 < 3 ∧ dd.2 < 3 := by
  cases dd with
  | mk x y =>
    simp only [blockIdx, List.mem_flatMap, List.mem_map, List.mem_range]
    constructor
    · rintro ⟨a, ha, b, hb, e⟩
      cases e
      exact ⟨ha, hb⟩
    · rintro ⟨hx, hy⟩
      exact ⟨x, hx, y, hy, rfl⟩

theorem rowCells_facts {i : Nat} (hi : i < 9) :
    (rowCells i).length = 9 ∧ (rowCells i).Nodup ∧
    (∀ p ∈ rowCells i, p ∈ allCells) ∧
    (∀ p ∈ rowCells i, ∀ q ∈ rowCells i, p ≠ q → isPeerPair p q) := by
  refine ⟨by simp [rowCells], ?_, ?_, ?_⟩
  · apply List.Nodup.map_on ?_ (List.nodup_range 9)
    intro x _ y _ hxy
    exact congrArg Prod.snd hxy
  · intro p hp
    simp only [rowCells, List.mem_map, List.mem_range] at hp
    obtain ⟨j, hj, rfl⟩ := hp
    exact mem_allCells.mpr ⟨hi, hj⟩
  · intro p hp q hq hne
    simp only [rowCells, List.mem_map, List.mem_range] at hp hq
    obtain ⟨j1, _, rfl⟩ := hp
    obtain ⟨j2, _, rfl⟩ := hq
    exact ⟨hne, Or.inl rfl⟩

theorem colCells_facts {j : Nat} (hj : j < 9) :
    (colCells j).length = 9 ∧ (colCells j).Nodup ∧
    (∀ p ∈ colCells j, p ∈ allCells) ∧
    (∀ p ∈ colCells j, ∀ q ∈ colCells j, p ≠ q → isPeerPair p q) := by
  refine ⟨by simp [colCells], ?_, ?_, ?_⟩
  · apply List.Nodup.map_on ?_ (List.nodup_range 9)
    intro x _ y _ hxy
    exact congrArg Prod.fst hxy
  · intro p hp
    simp only [colCells, List.mem_map, List.mem_range] at hp
    obtain ⟨i, hi, rfl⟩ := hp
    exact mem_allCells.mpr ⟨hi, hj⟩
  · intro p hp q hq hne
    simp only [colCells, List.mem_map, List.mem_range] at hp hq
    obtain ⟨i1, _, rfl⟩ := hp
    obtain ⟨i2, _, rfl⟩ := hq
    exact ⟨hne, Or.inr (Or.inl rfl)⟩

theorem blockCells_facts {bi bj : Nat} (hbi : bi < 3) (hbj : bj < 3) :
    (blockCells bi bj).length = 9 ∧ (blockCells bi bj).Nodup ∧
    (∀ p ∈ blockCells bi bj, p ∈ allCells) ∧
    (∀ p ∈ blockCells bi bj, ∀ q ∈ blockCells bi bj, p ≠ q →
      isPeerPair p q) := by
  refine ⟨by rw [blockCells, List.length_map]; rfl, ?_, ?_, ?_⟩
  · apply List.Nodup.map_on ?_ (by decide : blockIdx.Nodup)
    intro x hx y hy hxy
    have hx' := mem_blockIdx.mp hx
    have hy' := mem_blockIdx.mp hy
    have h1 : 3 * bi + x.1 = 3 * bi + y.1 := congrArg Prod.fst hxy
    have h2 : 3 * bj + x.2 = 3 * bj + y.2 := congrArg Prod.snd hxy
    exact Prod.ext (by omega) (by omega)
  · intro p hp
    simp only [blockCells, List.mem_map] at hp
    obtain ⟨dd, hdd, rfl⟩ := hp
    have := mem_blockIdx.mp hdd
    exact mem_allCells.mpr ⟨by omega, by omega⟩
  · intro p hp q hq hne
    simp only [blockCells, List.mem_map] at hp hq
    obtain ⟨d1, hd1, rfl⟩ := hp
    obtain ⟨d2, hd2, rfl⟩ := hq
    have h1 := mem_blockIdx.mp hd1
    have h2 := mem_blockIdx.mp hd2
    refine ⟨hne, Or.inr (Or.inr ⟨by omega, by omega⟩)⟩

theorem solve_all_pairs {board : Board} {m : Method} {h : Heuristic}
    (hwf : WF board) (hcons : Consistent board)
    (hs : (solve_sudoku board m h).2 = true) :
    ∀ p ∈ allCells, ∀ q ∈ allCells, isPeerPair p q →
      bget (solve_sudoku board m h).1 p.1 p.2 ≠
        bget (solve_sudoku board m h).1 q.1 q.2 := by
  have hw : SolWitness board (solve_sudoku board m h).1 :=
    solveFuel_witness 82 m h board hwf hs
  intro p hp q hq hpeer
  by_cases hz : bget board p.1 p.2 = 0 ∨ bget board q.1 q.2 = 0
  · exact hw.2.2.2 p hp q hq hpeer hz
  · push_neg at hz
    rw [hw.2.2.1 p hp hz.1, hw.2.2.1 q hq hz.2]
    exact hcons p hp q hq hpeer hz.1 hz.2

/-! ## The CSV loader -/

theorem parseCells_length :
    ∀ {row : List String} {vals : List Int},
      parseCells row = some vals → vals.length = row.length := by
  intro row
  induction row with
  | nil =>
    intro vals h
    cases Option.some.inj h
    rfl
  | cons s ss ih =>
    intro vals h
    unfold parseCells at h
    cases hp : parsePyInt s with
    | none =>
      rw [hp] at h
      cases h
    | some v =>
      rw [hp] at h
      cases hc : parseCells ss with
      | none =>
        rw [hc] at h
        cases h
      | some vs =>
        rw [hc] at h
        cases Option.some.inj h
        rw [List.length_cons, List.length_cons, ih hc]

theorem read_ok_rows :
    ∀ {rows : List (List String)} {g : List (List Int)},
      read_sudoku_from_csv rows = Except.ok g →
      g.length = rows.length ∧ ∀ row ∈ g, row.length = 9 := by
  intro rows
  induction rows with
  | nil =>
    intro g h
    cases h
    exact ⟨rfl, fun r hr => absurd hr (List.not_mem_nil r)⟩
  | cons row rest ih =>
    intro g h
    unfold read_sudoku_from_csv at h
    cases hp : parseRow row with
    | error e =>
      rw [hp] at h
      cases h
    | ok vals =>
      rw [hp] at h
      cases hr : read_sudoku_from_csv rest with
      | error e =>
        rw [hr] at h
        cases h
      | ok board =>
        rw [hr] at h
        cases h
        obtain ⟨hlen, hrows⟩ := ih hr
        refine ⟨by rw [List.length_cons, List.length_cons, hlen], ?_⟩
        intro r hr'
        rcases List.mem_cons.mp hr' with rfl | hmem
        · unfold parseRow at hp
          by_cases h9 : row.length = 9
          · rw [if_pos h9] at hp
            cases hc : parseCells row with
            | none =>
              rw [hc] at hp
              cases hp
            | some vs =>
              rw [hc] at hp
              cases hp
              rw [parseCells_length hc, h9]
          · rw [if_neg h9] at hp
            cases hp
        · exact hrows r hmem

/-! ## `is_safe` against the spec's `isPlacementSafe` -/

theorem spec_safe_iff {board : Board} {r c n : Nat} :
    isPlacementSafeSpec board r c n = true ↔
      (∀ i < 9, i ≠ c → bget board r i ≠ n) ∧
      (∀ i < 9, i ≠ r → bget board i c ≠ n) ∧
      (∀ i < 3, ∀ j < 3, ¬(3 * (r / 3) + i = r ∧ 3 * (c / 3) + j = c) →
        bget board (3 * (r / 3) + i) (3 * (c / 3) + j) ≠ n) := by
  simp only [isPlacementSafeSpec, Bool.and_eq_true, List.all_eq_true,
    List.mem_range, Bool.or_eq_true, beq_iff_eq, Bool.not_eq_true',
    beq_eq_false_iff_ne]
  constructor
  · rintro ⟨⟨h1, h2⟩, h3⟩
    refine ⟨fun i hi hic => ?_, fun i hi hir => ?_, fun i hi j hj hij => ?_⟩
    · rcases h1 i hi with he | hv
      · exact absurd he hic
      · exact hv
    · rcases h2 i hi with he | hv
      · exact absurd he hir
      · exact hv
    · rcases h3 i hi j hj with he | hv
      · exact absurd he hij
      · exact hv
  · rintro ⟨h1, h2, h3⟩
    refine ⟨⟨fun i hi => ?_, fun i hi => ?_⟩, fun i hi j hj => ?_⟩
    · by_cases hic : i = c
      · exact Or.inl hic
      · exact Or.inr (h1 i hi hic)
    · by_cases hir : i = r
      · exact Or.inl hir
      · exact Or.inr (h2 i hi hir)
    · by_cases hij : 3 * (r / 3) + i = r ∧ 3 * (c / 3) + j = c
      · exact Or.inl hij
      · exact Or.inr (h3 i hi j hj hij)

theorem is_safe_eq_spec (board : Board) (r c n : Nat) (hr : r < 9)
    (hc : c < 9) :
    is_safe board r c n =
      (isPlacementSafeSpec board r c n && !(bget board r c == n)) := by
  have hiff : is_safe board r c n = true ↔
      (isPlacementSafeSpec board r c n && !(bget board r c == n)) = true := by
    rw [Bool.and_eq_true, is_safe_iff, spec_safe_iff]
    constructor
    · rintro ⟨hrc, hblk⟩
      refine ⟨⟨?_, ?_, ?_⟩, ?_⟩
      · intro i hi _
        exact (hrc i hi).1
      · intro i hi _
        exact (hrc i hi).2
      · intro i hi j hj _
        exact hblk i hi j hj
      · simp only [Bool.not_eq_true', beq_eq_false_iff_ne]
        exact (hrc c hc).1
    · rintro ⟨⟨hrow, hcol, hblk⟩, hcell⟩
      simp only [Bool.not_eq_true', beq_eq_false_iff_ne] at hcell
      refine ⟨fun i hi => ⟨?_, ?_⟩, fun i hi j hj => ?_⟩
      · by_cases hic : i = c
        · subst hic
          exact hcell
        · exact hrow i hi hic
      · by_cases hir : i = r
        · subst hir
          exact hcell
        · exact hcol i hi hir
      · by_cases hij : 3 * (r / 3) + i = r ∧ 3 * (c / 3) + j = c
        · rw [hij.1, hij.2]
          exact hcell
        · exact hblk i hi j hj hij
  cases h1 : is_safe board r c n
  · cases h2 : (isPlacementSafeSpec board r c n && !(bget board r c == n))
    · rfl
    · have := hiff.mpr h2
      rw [h1] at this
      cases this
  · rw [hiff.mp h1]

/-- When `ac` reports failure under `method = arc`, the solve fails at once:
the grid is returned untouched and no search step runs. -/
theorem solve_arc_of_ac_false {board : Board} {h : Heuristic}
    (hac : ac board = false) :
    solve_sudoku board Method.arc h = (board, false) := by
  show solveFuel (81 + 1) Method.arc h board = (board, false)
  rw [solveFuel_succ]
  have hg : ((Method.arc == Method.arc) && !(ac board)) = true := by
    rw [hac]
    rfl
  rw [if_pos hg]

/-! ## The claims -/

/-- Claim C1: for every well-formed 9×9 input grid whose fixed cells do not
already violate a row/column/block constraint, if the solver returns success
then the resulting grid is fully assigned (all cells `1..9`) and every row,
every column, and every 3×3 block contains each digit `1..9` exactly once —
under every method and heuristic. -/
theorem claim1_solved_grid_valid (board : Board) (m : Method) (h : Heuristic)
    (hwf : WF board) (hcons : Consistent board)
    (hs : (solve_sudoku board m h).2 = true) :
    AllDigits (solve_sudoku board m h).1 ∧
    (∀ i < 9, ∀ d, 1 ≤ d → d ≤ 9 →
      (unitVals (solve_sudoku board m h).1 (rowCells i)).count d = 1) ∧
    (∀ j < 9, ∀ d, 1 ≤ d → d ≤ 9 →
      (unitVals (solve_sudoku board m h).1 (colCells j)).count d = 1) ∧
    (∀ bi < 3, ∀ bj < 3, ∀ d, 1 ≤ d → d ≤ 9 →
      (unitVals (solve_sudoku board m h).1 (blockCells bi bj)).count d = 1) := by
  have hw : SolWitness board (solve_sudoku board m h).1 :=
    solveFuel_witness 82 m h board hwf hs
  have hap := solve_all_pairs hwf hcons hs
  refine ⟨hw.2.1, ?_, ?_, ?_⟩
  · intro i hi
    obtain ⟨hlen, hnd, hsub, hpeer⟩ := rowCells_facts hi
    exact unit_count hlen hnd (fun p hp => hw.2.1 p (hsub p hp))
      (fun p hp q hq hne =>
        hap p (hsub p hp) q (hsub q hq) (hpeer p hp q hq hne))
  · intro j hj
    obtain ⟨hlen, hnd, hsub, hpeer⟩ := colCells_facts hj
    exact unit_count hlen hnd (fun p hp => hw.2.1 p (hsub p hp))
      (fun p hp q hq hne =>
        hap p (hsub p hp) q (hsub q hq) (hpeer p hp q hq hne))
  · intro bi hbi bj hbj
    obtain ⟨hlen, hnd, hsub, hpeer⟩ := blockCells_facts hbi hbj
    exact unit_count hlen hnd (fun p hp => hw.2.1 p (hsub p hp))
      (fun p hp q hq hne =>
        hap p (hsub p hp) q (hsub q hq) (hpeer p hp q hq hne))

/-- Claim C1 witness: a concrete consistent puzzle on which the solver
succeeds and the conclusion evaluates. -/
theorem claim1_witness :
    WF gridF0b ∧ Consistent gridF0b ∧
      (solve_sudoku gridF0b Method.backtracking Heuristic.none).2 = true ∧
      (unitVals (solve_sudoku gridF0b Method.backtracking Heuristic.none).1
        (rowCells 0)).count 1 = 1 := by
  have h1 : WF gridF0b := by decide
  have h2 : Consistent gridF0b := by decide
  have h3 : (solve_sudoku gridF0b Method.backtracking Heuristic.none).2 =
      true := by decide
  exact ⟨h1, h2, h3,
    (claim1_solved_grid_valid gridF0b Method.backtracking Heuristic.none
      h1 h2 h3).2.1 0 (by decide) 1 (by decide) (by decide)⟩

/-- Claim C2 counterexample: the all-fives board has two identical fixed
digits in row 0 (an already-contradictory puzzle), yet `ac` returns success
rather than failure — arcs are only seeded from unassigned cells, so the
contradiction between two assigned cells is never examined. -/
theorem claim2_counterexample :
    bget allFives 0 0 = 5 ∧ bget allFives 0 1 = 5 ∧ ac allFives = true := by
  exact ⟨by decide, by decide, by decide⟩

/-- Claim C2 (amended): `ac` reports failure only when propagation empties a
domain; whenever it does report failure and the method is arc-assisted, the
whole solve fails immediately, with the grid unmodified and no search step
performed. -/
theorem claim2_amended (board : Board) (h : Heuristic)
    (hac : ac board = false) :
    solve_sudoku board Method.arc h = (board, false) :=
  solve_arc_of_ac_false hac

/-- Claim C2 witness: a concrete contradictory board on which `ac` does
fail, and the solve returns the untouched board with `False`. -/
theorem claim2_witness :
    ac gridAcFail = false ∧
      solve_sudoku gridAcFail Method.arc Heuristic.none =
        (gridAcFail, false) := by
  have h : ac gridAcFail = false := by decide
  exact ⟨h, claim2_amended gridAcFail Heuristic.none h⟩

/-- Claim C3 counterexample: on a puzzle with a single empty cell the
propagator is invoked twice under `method = arc` (once at the top call and
once in the recursive call), not exactly once; the counter variant agrees
with `solve_sudoku` on the board and result. -/
theorem claim3_counterexample :
    (solve_sudoku_acCalls gridF0a Method.arc Heuristic.none).2 = 2 ∧
    ¬(solve_sudoku_acCalls gridF0a Method.arc Heuristic.none).2 = 1 ∧
    (solve_sudoku_acCalls gridF0a Method.arc Heuristic.none).1 =
      solve_sudoku gridF0a Method.arc Heuristic.none := by
  exact ⟨by decide, by decide, by decide⟩

/-- Claim C3 (amended): with `method = arc` the propagator is re-invoked at
the start of every recursive call (the method argument is passed through),
but the observable behaviour is equivalent to running `ac` once on the
initial grid and, if it succeeds, running the plain backtracking search
unchanged: same verdict and same final grid. -/
theorem claim3_amended (board : Board) (h : Heuristic) (hwf : WF board) :
    solve_sudoku board Method.arc h =
      (if ac board = true then solve_sudoku board Method.backtracking h
       else (board, false)) :=
  solveFuel_arc_eq 82 h board hwf

/-- Claim C3 witness: the equivalence at a concrete puzzle. -/
theorem claim3_witness :
    WF gridF0a ∧
      solve_sudoku gridF0a Method.arc Heuristic.mrv =
        (if ac gridF0a = true then
          solve_sudoku gridF0a Method.backtracking Heuristic.mrv
         else (gridF0a, false)) := by
  have h : WF gridF0a := by decide
  exact ⟨h, claim3_amended gridF0a Heuristic.mrv h⟩

/-- Claim C4: for every well-formed input grid, any two of the six
(method × heuristic) configurations return the same satisfiability verdict;
and when the input has a unique solution witness, every configuration
returns exactly that solution grid with success. -/
theorem claim4_agreement (board : Board) (hwf : WF board)
    (m1 : Method) (h1 : Heuristic) (m2 : Method) (h2 : Heuristic) :
    ((solve_sudoku board m1 h1).2 = (solve_sudoku board m2 h2).2) ∧
    (∀ f, SolWitness board f → (∀ g, SolWitness board g → g = f) →
      solve_sudoku board m1 h1 = (f, true)) := by
  constructor
  · by_cases hb : (solve_sudoku board m1 h1).2 = true
    · rw [hb, (solve_sudoku_iff board m2 h2 hwf).mpr
        ((solve_sudoku_iff board m1 h1 hwf).mp hb)]
    · have hb1 : (solve_sudoku board m1 h1).2 = false := by
        cases hh : (solve_sudoku board m1 h1).2
        · rfl
        · exact absurd hh hb
      have hb2 : (solve_sudoku board m2 h2).2 = false := by
        cases hh : (solve_sudoku board m2 h2).2
        · rfl
        · exact absurd ((solve_sudoku_iff board m1 h1 hwf).mpr
            ((solve_sudoku_iff board m2 h2 hwf).mp hh)) hb
      rw [hb1, hb2]
  · intro f hwit huniq
    have hs : (solve_sudoku board m1 h1).2 = true :=
      (solve_sudoku_iff board m1 h1 hwf).mpr ⟨f, hwit⟩
    have hw : SolWitness board (solve_sudoku board m1 h1).1 :=
      solveFuel_witness 82 m1 h1 board hwf hs
    have hb := huniq _ hw
    have hpair : solve_sudoku board m1 h1 =
        ((solve_sudoku board m1 h1).1, (solve_sudoku board m1 h1).2) := rfl
    rw [hpair, hb, hs]

/-- Claim C4 witness: the agreement and the unique-solution clause at a
concrete grid (a complete grid is its own unique witness). -/
theorem claim4_witness :
    WF gridF0 ∧ SolWitness gridF0 gridF0 ∧
      ((solve_sudoku gridF0 Method.backtracking Heuristic.none).2 =
        (solve_sudoku gridF0 Method.arc Heuristic.mrv).2) ∧
      solve_sudoku gridF0 Method.backtracking Heuristic.degree =
        (gridF0, true) := by
  have h1 : WF gridF0 := by decide
  have h2 : SolWitness gridF0 gridF0 := by decide
  have h0 : NoZeros gridF0 := by decide
  exact ⟨h1, h2,
    (claim4_agreement gridF0 h1 Method.backtracking Heuristic.none
      Method.arc Heuristic.mrv).1,
    (claim4_agreement gridF0 h1 Method.backtracking Heuristic.degree
      Method.arc Heuristic.none).2 gridF0 h2
      (fun g hg => witness_unique_of_nozeros h1.1 h0 hg)⟩

/-- Claim C5 counterexample: the all-fives grid has the digit 5 twice among
the fixed cells of row 0, yet every one of the six method/heuristic
combinations reports success, not failure — fixed-cell conflicts are never
inspected. -/
theorem claim5_counterexample :
    bget allFives 0 0 = 5 ∧ bget allFives 0 1 = 5 ∧
    (solve_sudoku allFives Method.backtracking Heuristic.none).2 = true ∧
    (solve_sudoku allFives Method.backtracking Heuristic.degree).2 = true ∧
    (solve_sudoku allFives Method.backtracking Heuristic.mrv).2 = true ∧
    (solve_sudoku allFives Method.arc Heuristic.none).2 = true ∧
    (solve_sudoku allFives Method.arc Heuristic.degree).2 = true ∧
    (solve_sudoku allFives Method.arc Heuristic.mrv).2 = true := by
  exact ⟨by decide, by decide, by decide, by decide, by decide, by decide,
    by decide, by decide⟩

/-- Claim C5 (amended): the solver never re-checks conflicts between two
fixed cells; in particular every fully-assigned well-formed grid — even one
with a duplicated digit in a row — is reported solved, unchanged, under
every one of the six combinations. -/
theorem claim5_amended (board : Board) (hwf : WF board) (h0 : NoZeros board)
    (m : Method) (h : Heuristic) : solve_sudoku board m h = (board, true) :=
  solve_nozeros hwf h0 m h

/-- Claim C5 witness: the amended statement at the all-fives grid. -/
theorem claim5_witness :
    WF allFives ∧ NoZeros allFives ∧
      solve_sudoku allFives Method.arc Heuristic.degree =
        (allFives, true) := by
  have h1 : WF allFives := by decide
  have h2 : NoZeros allFives := by decide
  exact ⟨h1, h2, claim5_amended allFives h1 h2 Method.arc Heuristic.degree⟩

/-- Claim C6 counterexample: on the board whose only entry is a 1 at
`(0, 0)`, the value 1 appears in no cell other than `(0, 0)` in its row,
column, and block — the spec's predicate holds — yet `is_safe` returns
`false`, because its scans include the cell `(0, 0)` itself. -/
theorem claim6_counterexample :
    isPlacementSafeSpec gridC6 0 0 1 = true ∧
      is_safe gridC6 0 0 1 = false := by
  exact ⟨by decide, by decide⟩

/-- Claim C6 (amended): for in-range coordinates, `is_safe` returns true iff
the value appears nowhere else in the row, column, and 3×3 block **and** the
cell `(row, col)` itself does not currently hold the value; it never
modifies the grid (it is a pure function of the board in this model). -/
theorem claim6_amended (board : Board) (r c n : Nat) (hr : r < 9)
    (hc : c < 9) :
    is_safe board r c n =
      (isPlacementSafeSpec board r c n && !(bget board r c == n)) :=
  is_safe_eq_spec board r c n hr hc

/-- Claim C6 witness: the amended equation at a concrete board and cell. -/
theorem claim6_witness :
    is_safe gridC6 0 1 5 =
      (isPlacementSafeSpec gridC6 0 1 5 && !(bget gridC6 0 1 == 5)) :=
  claim6_amended gridC6 0 1 5 (by decide) (by decide)

/-- Claim C7 counterexample: the loader accepts out-of-range integer cells
and does not check the number of rows: a file of 9×9 cells all equal to the
string `17` yields a grid of 17s (not in `[0, 9]`) instead of an error, and
a file with a single row yields a 1×9 grid instead of a 9×9 one. -/
theorem claim7_counterexample :
    read_sudoku_from_csv csvRows17 =
      Except.ok (List.replicate 9 (List.replicate 9 (17 : Int))) ∧
    ¬((17 : Int) ≤ 9) ∧
    read_sudoku_from_csv csvRowsOne =
      Except.ok [[1, 2, 3, 4, 5, 6, 7, 8, 9]] ∧
    ¬(([[(1 : Int), 2, 3, 4, 5, 6, 7, 8, 9]] : List (List Int)).length =
      9) := by
  exact ⟨rfl, by decide, rfl, by decide⟩

/-- Claim C7 (amended): the loader raises a distinct error when a row does
not contain exactly 9 cells or a cell is not a parseable integer; every grid
it returns therefore has one row per CSV line, each of length 9 — but
neither the digit range `[0, 9]` nor the number of rows is validated. -/
theorem claim7_amended (rows : List (List String)) (g : List (List Int))
    (h : read_sudoku_from_csv rows = Except.ok g) :
    g.length = rows.length ∧ ∀ row ∈ g, row.length = 9 :=
  read_ok_rows h

/-- Claim C7 witness: the amended statement at a concrete input. -/
theorem claim7_witness :
    read_sudoku_from_csv csvRowsOne =
      Except.ok [[1, 2, 3, 4, 5, 6, 7, 8, 9]] ∧
    ([[(1 : Int), 2, 3, 4, 5, 6, 7, 8, 9]] : List (List Int)).length =
      csvRowsOne.length ∧
    ∀ row ∈ ([[(1 : Int), 2, 3, 4, 5, 6, 7, 8, 9]] : List (List Int)),
      row.length = 9 := by
  have h : read_sudoku_from_csv csvRowsOne =
      Except.ok [[1, 2, 3, 4, 5, 6, 7, 8, 9]] := rfl
  exact ⟨h, (claim7_amended csvRowsOne _ h).1, (claim7_amended csvRowsOne _ h).2⟩

/-- Claim C8: whenever the solver returns failure, the returned grid is
exactly the input grid — every tentative assignment has been reverted to
0 — and the failure is an ordinary return value (the embedding is a total
function; no exception is possible by construction). -/
theorem claim8_failure_restores (board : Board) (m : Method) (h : Heuristic)
    (hfail : (solve_sudoku board m h).2 = false) :
    (solve_sudoku board m h).1 = board :=
  solveFuel_fail_board 82 m h board hfail

/-- Claim C8 witness: a concrete unsatisfiable board on which the solver
fails and returns the board untouched. -/
theorem claim8_witness :
    (solve_sudoku gridStuck Method.backtracking Heuristic.none).2 = false ∧
    (solve_sudoku gridStuck Method.backtracking Heuristic.none).1 =
      gridStuck := by
  have h : (solve_sudoku gridStuck Method.backtracking Heuristic.none).2 =
      false := by decide
  exact ⟨h,
    claim8_failure_restores gridStuck Method.backtracking Heuristic.none h⟩

/-- Claim C9: every cell that is non-zero when the solver is invoked holds
the same value in the returned grid, whether the solve succeeds or fails;
and every variable-selection policy only ever returns cells currently equal
to 0. -/
theorem claim9_fixed_cells_preserved (board : Board) (m : Method)
    (h : Heuristic) (r c : Nat) :
    (bget board r c ≠ 0 →
      bget (solve_sudoku board m h).1 r c = bget board r c) ∧
    (∀ hpol : Heuristic, find_empty_location board hpol = some (r, c) →
      bget board r c = 0) := by
  constructor
  · intro hnz
    exact solveFuel_preserve 82 m h board r c hnz
  · intro hpol hf
    exact (find_empty_some hf).2

/-- Claim C9 witness: preservation of a concrete fixed cell through a
successful solve. -/
theorem claim9_witness :
    bget gridF0b 0 2 ≠ 0 ∧
    bget (solve_sudoku gridF0b Method.backtracking Heuristic.none).1 0 2 =
      bget gridF0b 0 2 := by
  exact ⟨by decide,
    (claim9_fixed_cells_preserved gridF0b Method.backtracking Heuristic.none
      0 2).1 (by decide)⟩

/-- Claim C10: on every well-formed grid and every configuration the solver
terminates: the result is independent of any fuel above the number of
zero-valued cells (so `solve_sudoku`'s fuel of 82 never runs out), and each
in-range assignment of a non-zero value to an empty cell strictly decreases
the number of zero-valued cells; each cell tries only the nine candidates
`1..9` (`nums`). -/
theorem claim10_termination (board : Board) (m : Method) (h : Heuristic)
    (hwf : WF board) :
    (∀ f1 f2, countZeros board < f1 → countZeros board < f2 →
      solveFuel f1 m h board = solveFuel f2 m h board) ∧
    solve_sudoku board m h = solveFuel (countZeros board + 1) m h board ∧
    (∀ r c v, r < 9 → c < 9 → bget board r c = 0 → v ≠ 0 →
      countZeros (bset board r c v) < countZeros board) := by
  refine ⟨fun f1 f2 h1 h2 => solveFuel_stable f1 f2 m h board hwf h1 h2,
    solve_sudoku_eq_fuel board m h hwf, ?_⟩
  intro r c v hr hc h0 hv
  have := countZeros_bset hwf.1 hr hc h0 hv
  omega

/-- Claim C10 witness: fuel-independence at a concrete puzzle. -/
theorem claim10_witness :
    WF gridF0b ∧
      solve_sudoku gridF0b Method.backtracking Heuristic.none =
        solveFuel (countZeros gridF0b + 1) Method.backtracking
          Heuristic.none gridF0b := by
  have h : WF gridF0b := by decide
  exact ⟨h,
    (claim10_termination gridF0b Method.backtracking Heuristic.none h).2.1⟩

end SudokuAgent
